import Mathlib

/-!
Verification development for the `ez-fm` file-manager core: a shallow
embedding of the main-process filesystem engine (virtual directory
listing over real directories and archives, the archive path resolver,
the batch copy/move transfer engine with progress reporting, and the
lazy folder-size cache and scheduler of the renderer), together with
theorems about the embedded operations.

Conventions of the embedding:
* JS strings are Lean `String`s; machine numbers are `Nat`/`Int`
  (sizes and times), and progress percentages are exact rationals `ℚ`
  (the JS doubles at play hold small integers and one division whose
  rounding is irrelevant to the stated properties).
* The real filesystem is modelled functionally: a tree `FsNode` for the
  transfer engine, and an abstract `stat` oracle for the path resolver.
* Asynchronous completion is modelled by explicit events: the renderer's
  folder-size scheduler becomes a state machine whose `complete` event
  models a promise resolving.
* Fallible operations return `Option`/an error component instead of
  throwing.
-/

namespace EzFm

/-! ## Directory entries and the shared sort comparator

`get-directory-contents` and `handleArchiveBrowsing` both return arrays
of plain objects with the shape below and sort them with the same
comparator (directories first, then `localeCompare` with base
sensitivity, modelled as case-insensitive lexicographic order). -/

/-! ### String primitives

The JS string operations the handlers use, embedded at the character
level (structurally recursive, so closed instances evaluate in the
kernel). -/

/-- `a.startsWith(b)`. -/
def strStartsWith (a b : String) : Bool :=
  b.data.isPrefixOf a.data

/-- `a.endsWith(b)`. -/
def strEndsWith (a b : String) : Bool :=
  b.data.isSuffixOf a.data

/-- `s.slice(n)` / `String.prototype.slice` from character `n` on. -/
def strDrop (s : String) (n : Nat) : String :=
  ⟨s.data.drop n⟩

/-- `s.length`. -/
def strLen (s : String) : Nat :=
  s.data.length

/-- `s.includes(c)` for a single character. -/
def strContains (s : String) (c : Char) : Bool :=
  s.data.contains c

/-- `s.toLowerCase()`. -/
def strToLower (s : String) : String :=
  ⟨s.data.map Char.toLower⟩

/-- Worker for `splitChar`: `acc` holds the current segment reversed. -/
def splitCharAux (sep : Char) : List Char → List Char → List String
  | [], acc => [⟨acc.reverse⟩]
  | c :: cs, acc =>
    if c = sep then ⟨acc.reverse⟩ :: splitCharAux sep cs []
    else splitCharAux sep cs (c :: acc)

/-- `s.split(sep)` for a one-character separator (JS semantics:
`"".split` is `[""]`, empty segments are kept). -/
def splitChar (sep : Char) (s : String) : List String :=
  splitCharAux sep s.data []

/-- Case-insensitive-ready lexicographic `≤` on character lists; the
embedding of `localeCompare(..., { sensitivity: "base" }) <= 0` once
both names are lowered. -/
def lexLE : List Char → List Char → Bool
  | [], _ => true
  | _ :: _, [] => false
  | a :: as, b :: bs =>
    if a < b then true
    else if a = b then lexLE as bs
    else false

/-- One listed item, as produced by the `get-directory-contents` handler
or by `handleArchiveBrowsing` in the main process. -/
structure FileEntry where
  name : String
  path : String
  isDirectory : Bool
  isFile : Bool
  isSymlink : Bool
  linkTarget : Option String := none
  size : Nat := 0
  modified : Option String := none
  created : Option String := none
  extension : Option String := none
deriving Repr, DecidableEq

/-- `path.join(a, b)` for an absolute `a` and a separator-free `b`. -/
def pathJoin (a b : String) : String :=
  if strEndsWith a "/" then a ++ b else a ++ "/" ++ b

/-- Index (in characters) of the last `'.'` of a list, if any. -/
def lastDotIdx : List Char → Option Nat
  | [] => none
  | c :: cs =>
    match lastDotIdx cs with
    | some i => some (i + 1)
    | none => if c = '.' then some 0 else none

/-- `path.extname(name)`: the suffix from the last dot, empty when there
is no dot or the only dot starts the name. -/
def extname (s : String) : String :=
  match lastDotIdx s.toList with
  | none => ""
  | some 0 => ""
  | some i => ⟨s.toList.drop i⟩

/-- The sort comparator used by both listing handlers, as a boolean
`≤`-style relation: directories strictly before files, names compared
case-insensitively inside each group. -/
def entryLE (a b : FileEntry) : Bool :=
  if a.isDirectory ∧ ¬ b.isDirectory then true
  else if ¬ a.isDirectory ∧ b.isDirectory then false
  else lexLE (strToLower a.name).data (strToLower b.name).data

/-- The comparator as a relation, for sorting lemmas. -/
def entryRel (a b : FileEntry) : Prop :=
  entryLE a b = true

instance : DecidableRel entryRel := fun a b => by
  unfold entryRel; infer_instance

/-- `contents.sort(comparator)` of both handlers: a stable sort by the
comparator (JS `Array.prototype.sort` is stable). -/
def sortEntries (es : List FileEntry) : List FileEntry :=
  es.insertionSort entryRel

/-! ## Real-directory listing (`get-directory-contents`) -/

/-- Result of the best-effort `fs.stat` on one child. -/
structure StatInfo where
  size : Nat
  mtime : String
  birthtime : String
deriving Repr, DecidableEq

/-- One `fs.readdir(..., { withFileTypes: true })` dirent together with
the outcome of the per-child `stat`/`readlink` calls (`none` models the
call throwing; `readlink` is only attempted after a successful `stat`
and only for symlinks). -/
structure DirEnt where
  name : String
  isDirectory : Bool
  isFile : Bool
  isSymlink : Bool
  statRes : Option StatInfo
  linkRes : Option String
deriving Repr, DecidableEq

/-- The per-item object built by the `get-directory-contents` handler. -/
def toEntry (dirPath : String) (it : DirEnt) : FileEntry :=
  { name := it.name
    path := pathJoin dirPath it.name
    isDirectory := it.isDirectory
    isFile := it.isFile
    isSymlink := it.isSymlink
    linkTarget := if it.statRes.isSome ∧ it.isSymlink then it.linkRes else none
    size := (it.statRes.map StatInfo.size).getD 0
    modified := it.statRes.map StatInfo.mtime
    created := it.statRes.map StatInfo.birthtime
    extension := if it.isFile then some (strToLower (extname it.name)) else none }

/-- The `get-directory-contents` handler's successful branch: map each
dirent to an entry and sort. -/
def getDirectoryContents (dirPath : String) (items : List DirEnt) : List FileEntry :=
  sortEntries (items.map (toEntry dirPath))

/-! ## Archive listing (`handleArchiveBrowsing`, record-processing part)

The 7z subprocess produces one block per archive member with `Path`,
`Size`, `Attributes`, `Modified` fields; the handler filters the records
to strict descendants of the internal path, keeps the first path segment
as the child name, deduplicates by name (first occurrence wins) and
classifies directories. -/

/-- One parsed `7z l -slt` output block (missing fields are `""`). -/
structure SevenZipRecord where
  Path : String
  Attributes : String
  Size : String
  Modified : String
deriving Repr, DecidableEq

/-- `s.replace(/\\/g, '/')`. -/
def normSlash (s : String) : String :=
  ⟨s.data.map (fun c => if c = '\\' then '/' else c)⟩

/-- `parseInt(s || '0', 10)` for the non-negative numeric strings 7z
emits (a NaN result is collapsed to 0). -/
def parseIntDec (s : String) : Nat :=
  ((s.takeWhile Char.isDigit).toNat?).getD 0

/-- The record loop of `handleArchiveBrowsing`: `normInternal` is the
slash-normalized internal path, `seen` the set of already-emitted child
names. -/
def buildArchiveEntries (fullPath normInternal : String) (seen : List String) :
    List SevenZipRecord → List FileEntry
  | [] => []
  | r :: rs =>
    if r.Path = "" then buildArchiveEntries fullPath normInternal seen rs
    else
      let entryPath := normSlash r.Path
      if normInternal ≠ "" ∧ ¬ strStartsWith entryPath (normInternal ++ "/") then
        buildArchiveEntries fullPath normInternal seen rs
      else
        let relative := if normInternal ≠ "" then strDrop entryPath (strLen normInternal + 1)
          else entryPath
        if relative = "" then buildArchiveEntries fullPath normInternal seen rs
        else
          let parts := splitChar '/' relative
          let name := parts.headD ""
          if name ∈ seen then buildArchiveEntries fullPath normInternal seen rs
          else
            let isDirectChild := parts.length = 1
            let isDir : Bool := ¬ isDirectChild ∨ (r.Attributes ≠ "" ∧ strContains r.Attributes 'D')
            { name := name
              path := pathJoin fullPath name
              isDirectory := isDir
              isFile := ¬ isDir
              isSymlink := false
              size := if isDir then 0 else parseIntDec r.Size
              modified := if r.Modified = "" then none else some r.Modified
              created := none
              extension := if isDir then none else some (strToLower (extname name)) } ::
              buildArchiveEntries fullPath normInternal (name :: seen) rs

/-- The archive-listing result: synthesized children, sorted with the
shared comparator. -/
def handleArchiveListing (fullPath internalPath : String)
    (records : List SevenZipRecord) : List FileEntry :=
  sortEntries (buildArchiveEntries fullPath (normSlash internalPath) [] records)

/-- Whether a record survives the strict-descendant filter of the loop
(its path is non-empty and resolves to a non-empty relative path under
the internal path). -/
def relOf (normInternal : String) (r : SevenZipRecord) : String :=
  let ep := normSlash r.Path
  if normInternal ≠ "" then
    if strStartsWith ep (normInternal ++ "/") then strDrop ep (strLen normInternal + 1) else ""
  else ep

/-- Strict-descendant test for one record. -/
def keepRec (normInternal : String) (r : SevenZipRecord) : Bool :=
  r.Path ≠ "" ∧ relOf normInternal r ≠ ""

/-- The visible child name a kept record contributes: the first segment
of its relative path. -/
def childName (normInternal : String) (r : SevenZipRecord) : String :=
  (splitChar '/' (relOf normInternal r)).headD ""

/-- The classification the loop derives from one record: directory when
the relative path has more than one segment or the attributes mark a
directory. -/
def childIsDir (normInternal : String) (r : SevenZipRecord) : Bool :=
  (splitChar '/' (relOf normInternal r)).length ≠ 1 ∨
    (r.Attributes ≠ "" ∧ strContains r.Attributes 'D')

/-! ## Archive path resolver (`handleArchiveBrowsing`, upward walk)

The walk strips the last path segment and prepends it to the internal
path until a regular file (the archive) is found, for at most 20
iterations.  Absolute paths are modelled as their segment lists (the
filesystem root is `[]`), so `path.dirname` is `dropLast` and
`path.basename` is `getLast`; the filesystem is a `stat` oracle. -/

/-- Outcome of one `fs.stat` call (`absent` models the call throwing;
`other` a non-file non-directory entry such as a socket). -/
inductive StatR where
  | file
  | dir
  | other
  | absent
deriving Repr, DecidableEq

/-- Result of the upward walk. -/
inductive ResolveR where
  | found (archivePath : List String) (internalPath : List String)
  | notDir
  | notFound
deriving Repr, DecidableEq

/-- The `while (depth < 20)` loop, with `fuel` the remaining
iterations.  A `file` hit ends the walk successfully, a `dir` hit
returns the "Not a directory" error, a missing path ascends one
segment (breaking out at the root), and any other stat result retries
until the bound runs out. -/
def walkAux (stat : List String → StatR) : Nat → List String → List String → ResolveR
  | 0, _, _ => .notFound
  | fuel + 1, archivePath, internalPath =>
    match stat archivePath with
    | .file => .found archivePath internalPath
    | .dir => .notDir
    | .other => walkAux stat fuel archivePath internalPath
    | .absent =>
      match archivePath with
      | [] => .notFound
      | a :: as =>
        walkAux stat fuel (a :: as).dropLast
          ((a :: as).getLast (by simp) :: internalPath)

/-- The full resolver: walk upward from the requested path with the
source's depth bound of 20 and an empty accumulated internal path. -/
def resolveArchivePath (stat : List String → StatR) (fullPath : List String) : ResolveR :=
  walkAux stat 20 fullPath []

/-! ## Folder-size cache trimming (`trimCache`)

JS `Map` iterates keys in insertion order, so the cache is modelled as
an association list with the oldest-inserted entry first. -/

/-- `trimCache(cache, maxEntries)`: deletes the first
`size - maxEntries` keys in iteration (= insertion) order. -/
def trimCache {α β : Type} (cache : List (α × β)) (maxEntries : Nat) : List (α × β) :=
  if cache.length ≤ maxEntries then cache
  else cache.drop (cache.length - maxEntries)

/-- `MAX_FOLDER_SIZE_CACHE_ENTRIES`. -/
def MAX_FOLDER_SIZE_CACHE_ENTRIES : Nat := 500

/-! ## Lazy folder-size scheduler

`scheduleVisibleFolderSizes`, `enqueueFolderSize` and
`drainFolderSizeQueue` of the renderer, as a state machine.  The
asynchronous completion of a size computation (`finally` block of the
in-flight promise) is a separate `complete` event; `m` is the oracle
giving each path's current modification time as the renderer's
`currentItems` reports it (0 when unavailable, matching
`item && item.modified ? getTime() : 0`). -/

/-- One folder-size cache record, as written by the drain worker:
`{ size, mtime }`. -/
structure SizeEntry where
  size : Nat
  mtime : Int
deriving Repr, DecidableEq

/-- `FOLDER_SIZE_CONCURRENCY`. -/
def FOLDER_SIZE_CONCURRENCY : Nat := 3

/-- `FOLDER_SIZE_CACHE_TTL_MS = 5 * 60 * 1000`. -/
def FOLDER_SIZE_CACHE_TTL_MS : Int := 5 * 60 * 1000

/-- The scheduler's mutable globals: the work queue, the keys of the
`folderSizeInFlight` map, `folderSizeActive`, and the
`folderSizeCache` association (insertion-ordered). -/
structure SchedState where
  queue : List String
  inFlight : List String
  active : Nat
  cache : List (String × SizeEntry)
deriving Repr, DecidableEq

/-- `folderSizeCache.get(p)`. -/
def cacheGet (cache : List (String × SizeEntry)) (p : String) : Option SizeEntry :=
  (cache.find? (fun kv => kv.1 = p)).map (·.2)

/-- `folderSizeCache.set(p, e)` (JS `Map.set` keeps the insertion slot
of an existing key and appends a new one). -/
def cacheSet (cache : List (String × SizeEntry)) (p : String) (e : SizeEntry) :
    List (String × SizeEntry) :=
  if (cache.find? (fun kv => kv.1 = p)).isSome then
    cache.map (fun kv => if kv.1 = p then (p, e) else kv)
  else cache ++ [(p, e)]

/-- The freshness test both `scheduleVisibleFolderSizes` and
`drainFolderSizeQueue` apply: a cached entry whose stored `mtime`
equals the current one. -/
def cacheFresh (m : String → Int) (cache : List (String × SizeEntry)) (p : String) :
    Option SizeEntry :=
  match cacheGet cache p with
  | some c => if c.mtime = m p then some c else none
  | none => none

/-- The `while` loop of `drainFolderSizeQueue`, recursing on the queue
(each iteration shifts one path and never re-enqueues). -/
def drainAux (m : String → Int) :
    List String → List String → Nat → List (String × SizeEntry) → SchedState
  | [], inF, act, cache => ⟨[], inF, act, cache⟩
  | p :: rest, inF, act, cache =>
    if act < FOLDER_SIZE_CONCURRENCY then
      if (cacheFresh m cache p).isSome then drainAux m rest inF act cache
      else if p ∈ inF then drainAux m rest inF act cache
      else drainAux m rest (p :: inF) (act + 1) cache
    else ⟨p :: rest, inF, act, cache⟩

/-- `drainFolderSizeQueue`: pull queued paths while a worker slot is
free; skip paths that became fresh while queued and paths already in
flight; otherwise occupy a slot and mark the path in flight. -/
def drain (m : String → Int) (s : SchedState) : SchedState :=
  drainAux m s.queue s.inFlight s.active s.cache

/-- `enqueueFolderSize`: push and drain. -/
def enqueueFolderSize (m : String → Int) (p : String) (s : SchedState) : SchedState :=
  drain m { s with queue := s.queue ++ [p] }

/-- The per-row body of `scheduleVisibleFolderSizes`: a fresh cache
entry only updates the size cell; otherwise the path is enqueued
unless already in flight. -/
def scheduleRow (m : String → Int) (p : String) (s : SchedState) : SchedState :=
  if (cacheFresh m s.cache p).isSome then s
  else if p ∈ s.inFlight then s
  else enqueueFolderSize m p s

/-- Completion of one in-flight computation (the promise body finishing
with `res`, then its `finally`): record the result on success, free the
slot, remove the in-flight marker, drain again.  A completion for a
path that is not in flight cannot occur and is a no-op. -/
def complete (m : String → Int) (p : String) (res : Option SizeEntry) (s : SchedState) :
    SchedState :=
  if p ∈ s.inFlight then
    let s₁ := match res with
      | some e => { s with cache := cacheSet s.cache p e }
      | none => s
    drain m { s₁ with active := s₁.active - 1, inFlight := s₁.inFlight.erase p }
  else s

/-- External events driving the scheduler: a visible row being
scheduled, an in-flight computation completing, and navigation away
(which clears the queue: `folderSizeQueue.length = 0`). -/
inductive SchedEvent where
  | schedule (m : String → Int) (p : String)
  | complete (m : String → Int) (p : String) (res : Option SizeEntry)
  | clearQueue

/-- Apply one event. -/
def schedStep (s : SchedState) : SchedEvent → SchedState
  | .schedule m p => scheduleRow m p s
  | .complete m p res => complete m p res s
  | .clearQueue => { s with queue := [] }

/-- The scheduler's startup state. -/
def schedInit : SchedState :=
  { queue := [], inFlight := [], active := 0, cache := [] }

/-- Run a sequence of events from startup. -/
def schedRun (events : List SchedEvent) : SchedState :=
  events.foldl schedStep schedInit

/-! ## Batch transfer engine (`batch-file-operation` handler)

The real filesystem subtree the transfer operates on is modelled as a
tree; paths are segment lists relative to its root.  Cross-device
rename failure, an environmental condition, is an oracle `exdev`.  The
recursive copy is fuelled because the source re-reads the (mutable)
filesystem at every step; the fuel models the call stack and theorems
provide it explicitly. -/

/-- A filesystem node: a regular file with its byte size, or a
directory with named children in directory order. -/
inductive FsNode where
  | file (size : Nat)
  | dir (children : List (String × FsNode))
deriving Repr

/-- First child with the given name. -/
def findChild (cs : List (String × FsNode)) (x : String) : Option FsNode :=
  (cs.find? (fun c => c.1 = x)).map (·.2)

/-- Replace the named child, or append it. -/
def setChild (cs : List (String × FsNode)) (x : String) (n : FsNode) :
    List (String × FsNode) :=
  if (cs.find? (fun c => c.1 = x)).isSome then
    cs.map (fun c => if c.1 = x then (x, n) else c)
  else cs ++ [(x, n)]

/-- `fs.stat`/`fs.readdir` backbone: the node at a path, if any. -/
def lookup : FsNode → List String → Option FsNode
  | n, [] => some n
  | .file _, _ :: _ => none
  | .dir cs, x :: xs =>
    match findChild cs x with
    | some c => lookup c xs
    | none => none

/-- `fs.mkdir(p, { recursive: true })`: create missing directories
along the path; `none` when a regular file is in the way. -/
def mkdirp : FsNode → List String → Option FsNode
  | .dir cs, [] => some (.dir cs)
  | .file _, [] => none
  | .file _, _ :: _ => none
  | .dir cs, x :: xs =>
    let child := match findChild cs x with
      | some c => c
      | none => .dir []
    match mkdirp child xs with
    | some c' => some (.dir (setChild cs x c'))
    | none => none

/-- `fs.copyFile(src, dest)` destination side: write a file of size
`sz` at `p`; the parent must already exist as a directory, and an
existing directory at `p` is an error. -/
def writeFile : FsNode → List String → Nat → Option FsNode
  | _, [], _ => none
  | .file _, _ :: _, _ => none
  | .dir cs, [x], sz =>
    match findChild cs x with
    | some (.dir _) => none
    | _ => some (.dir (setChild cs x (.file sz)))
  | .dir cs, x :: y :: ys, sz =>
    match findChild cs x with
    | some c => (writeFile c (y :: ys) sz).map (fun c' => .dir (setChild cs x c'))
    | none => none

/-- `fs.rm(p, { recursive: true, force: true })`: never fails. -/
def removeAt : FsNode → List String → FsNode
  | n, [] => n
  | .file sz, _ :: _ => .file sz
  | .dir cs, [x] => .dir (cs.filter (fun c => ¬ c.1 = x))
  | .dir cs, x :: y :: ys =>
    .dir (cs.map (fun c => if c.1 = x then (c.1, removeAt c.2 (y :: ys)) else c))

/-- Place a node at a path whose parent already exists as a directory
(no intermediate creation). -/
def setNodeAt : FsNode → List String → FsNode → Option FsNode
  | _, [], n => some n
  | .file _, _ :: _, _ => none
  | .dir cs, [x], n => some (.dir (setChild cs x n))
  | .dir cs, x :: y :: ys, n =>
    match findChild cs x with
    | some c => (setNodeAt c (y :: ys) n).map (fun c' => .dir (setChild cs x c'))
    | none => none

/-- `fs.rename(src, dest)`: fails across devices (the `exdev` oracle),
on a missing source, onto an existing directory, or into a missing
parent; otherwise moves the subtree atomically. -/
def renameFs (exdev : List String → List String → Bool) (root : FsNode)
    (src dest : List String) : Option FsNode :=
  if exdev src dest then none
  else
    match lookup root src with
    | none => none
    | some n =>
      match lookup root dest with
      | some (.dir _) => none
      | _ => setNodeAt (removeAt root src) dest n

mutual
/-- Aggregate (bytes, files) of a subtree: what the handler's `scan`
accumulates for an existing path. -/
def scanNode : FsNode → Nat × Nat
  | .file sz => (sz, 1)
  | .dir cs => scanChildren cs

/-- Children part of `scanNode`. -/
def scanChildren : List (String × FsNode) → Nat × Nat
  | [] => (0, 0)
  | c :: cs =>
    let a := scanNode c.2
    let b := scanChildren cs
    (a.1 + b.1, a.2 + b.2)
end

/-- Bytes the scan phase attributes to a path (0 when it does not
exist: the scan swallows stat errors). -/
def scanBytes (root : FsNode) (p : List String) : Nat :=
  match lookup root p with
  | some n => (scanNode n).1
  | none => 0

/-- One `{ source, dest }` pair of the batch. -/
structure TransferItem where
  source : List String
  dest : List String

/-- `operation` argument of the handler. -/
inductive TransferOp where
  | copy
  | move
deriving Repr, DecidableEq

/-- Add `v` to the accumulated size recorded for key `k` (the scan's
`itemSizes.set(root, (itemSizes.get(root) || 0) + size)`; one key per
scanned item, values accumulate across duplicate sources). -/
def sizesAdd (m : List (List String × Nat)) (k : List String) (v : Nat) :
    List (List String × Nat) :=
  if (m.find? (fun kv => kv.1 = k)).isSome then
    m.map (fun kv => if kv.1 = k then (kv.1, kv.2 + v) else kv)
  else m ++ [(k, v)]

/-- The `itemSizes` map after the scan phase. -/
def itemSizesOf (root : FsNode) (items : List TransferItem) : List (List String × Nat) :=
  items.foldl (fun m it => sizesAdd m it.source (scanBytes root it.source)) []

/-- `itemSizes.get(p) || 0`. -/
def itemSizesGet (m : List (List String × Nat)) (p : List String) : Nat :=
  ((m.find? (fun kv => kv.1 = p)).map (·.2)).getD 0

/-- `totalBytes` after the scan phase, with the division-by-zero guard
`if (totalBytes === 0) totalBytes = 1`. -/
def totalBytesOf (root : FsNode) (items : List TransferItem) : Nat :=
  let t := (items.map (fun it => scanBytes root it.source)).sum
  if t = 0 then 1 else t

/-- The handler's mutable execution state: the filesystem plus
`processedBytes`, `processedFiles` and the progress events sent so
far. -/
structure BState where
  fsys : FsNode
  processedBytes : Nat
  processedFiles : Nat
  events : List ℚ

/-- An error escaping a filesystem call during execution (the JS
exception, by cause), plus the embedding's fuel exhaustion marker. -/
inductive FsErr where
  | statFail
  | mkdirFail
  | copyFail
  | outOfFuel
deriving Repr, DecidableEq

/-- `Math.min(100, (processedBytes / totalBytes) * 100)`. -/
def pct (total b : Nat) : ℚ :=
  min 100 ((b : ℚ) / (total : ℚ) * 100)

/-- `reportProgress()`: emit the clamped percentage for the current
`processedBytes`. -/
def reportProgress (total : Nat) (st : BState) : BState :=
  { st with events := st.events ++ [pct total st.processedBytes] }

/-- Pending work inside `copyRecursive`: copy the node at `src` to
`dest`, or run the per-child loop over the remaining `names` read from
`src`'s directory listing. -/
inductive CopyTask where
  | node (src dest : List String)
  | kids (src dest : List String) (names : List String)

/-- The body of `copyRecursive` (and its `for (const child of
children)` loop), defunctionalized so the recursion is structural on
the fuel; the fuel models the JS call stack and is an artifact of the
embedding, chosen large enough by callers. -/
def copyGo (total : Nat) : Nat → CopyTask → BState → BState × Option FsErr
  | 0, _, st => (st, some .outOfFuel)
  | _ + 1, .kids _ _ [], st => (st, none)
  | fuel + 1, .kids src dest (n :: ns), st =>
    match copyGo total fuel (.node (src ++ [n]) (dest ++ [n])) st with
    | (st', some e) => (st', some e)
    | (st', none) => copyGo total fuel (.kids src dest ns) st'
  | fuel + 1, .node src dest, st =>
    match lookup st.fsys src with
    | none => (st, some .statFail)
    | some (.dir cs) =>
      match mkdirp st.fsys dest with
      | none => (st, some .mkdirFail)
      | some f' =>
        copyGo total fuel (.kids src dest (cs.map (·.1))) { st with fsys := f' }
    | some (.file sz) =>
      match writeFile st.fsys dest sz with
      | none => (st, some .copyFail)
      | some f' =>
        let st' : BState :=
          { fsys := f', processedBytes := st.processedBytes + sz,
            processedFiles := st.processedFiles + 1, events := st.events }
        (reportProgress total st', none)

/-- `copyRecursive(src, dest)`: stat the source; recreate a directory
(recursive mkdir then per-child copy, re-reading the filesystem) or
copy a file and advance progress by its size. -/
def copyRecursive (total fuel : Nat) (src dest : List String) (st : BState) :
    BState × Option FsErr :=
  copyGo total fuel (.node src dest) st

/-- The execution phase: per item in submission order, copy, or move
by rename (crediting the scanned size at once) with copy-then-delete
fallback; the single surrounding try/catch stops at the first escaping
error. -/
def execItems (exdev : List String → List String → Bool) (total : Nat)
    (itemSizes : List (List String × Nat)) (fuel : Nat) (op : TransferOp) :
    List TransferItem → BState → BState × Option FsErr
  | [], st => (st, none)
  | it :: rest, st =>
    match op with
    | .copy =>
      match copyRecursive total fuel it.source it.dest st with
      | (st', some e) => (st', some e)
      | (st', none) => execItems exdev total itemSizes fuel op rest st'
    | .move =>
      match renameFs exdev st.fsys it.source it.dest with
      | some f' =>
        let size := itemSizesGet itemSizes it.source
        let st' := reportProgress total
          { st with fsys := f', processedBytes := st.processedBytes + size }
        execItems exdev total itemSizes fuel op rest st'
      | none =>
        match copyRecursive total fuel it.source it.dest st with
        | (st', some e) => (st', some e)
        | (st', none) =>
          execItems exdev total itemSizes fuel op rest
            { st' with fsys := removeAt st'.fsys it.source }

/-- The whole `batch-file-operation` handler: scan phase (totals and
per-item sizes), then execution phase from a zeroed progress state. -/
def runBatch (exdev : List String → List String → Bool) (fuel : Nat)
    (items : List TransferItem) (op : TransferOp) (world : FsNode) :
    BState × Option FsErr :=
  execItems exdev (totalBytesOf world items) (itemSizesOf world items) fuel op items
    { fsys := world, processedBytes := 0, processedFiles := 0, events := [] }

/-! ## Claim-side definitions

Definitions used only to state properties (characterizations the
theorems compare the embedded code against). -/

/-- The entry the archive loop synthesizes from one kept record (the
object literal pushed onto `contents`). -/
def mkArchiveEntry (fullPath normInternal : String) (r : SevenZipRecord) : FileEntry :=
  { name := childName normInternal r
    path := pathJoin fullPath (childName normInternal r)
    isDirectory := childIsDir normInternal r
    isFile := ¬ childIsDir normInternal r
    isSymlink := false
    size := if childIsDir normInternal r then 0 else parseIntDec r.Size
    modified := if r.Modified = "" then none else some r.Modified
    created := none
    extension := if childIsDir normInternal r then none
      else some (strToLower (extname (childName normInternal r))) }

/-- The ordering the spec asserts for a listing: directories strictly
before files, and names in case-insensitive lexicographic order inside
each group. -/
def claimOrder (a b : FileEntry) : Prop :=
  (a.isDirectory = true ∧ b.isDirectory = false) ∨
    (a.isDirectory = b.isDirectory ∧
      lexLE (strToLower a.name).data (strToLower b.name).data = true)

/-! ## C2: the resolver's upward walk -/

/-- Writing `a_j` for `p` with its last `j` segments stripped: as long
as every `a_j` with `j < k` is absent, the walk spends `k` iterations
ascending to `a_k` while prepending the stripped segments to the
internal path. -/
theorem walkAux_ascend (stat : List String → StatR) :
    ∀ (k : Nat) (p internal : List String) (fuel : Nat), k ≤ p.length →
    (∀ j < k, stat (p.take (p.length - j)) = .absent) →
    walkAux stat (fuel + k) p internal
      = walkAux stat fuel (p.take (p.length - k)) (p.drop (p.length - k) ++ internal) := by
  intro k
  induction k with
  | zero =>
    intro p internal fuel _ _
    simp
  | succ k ih =>
    intro p internal fuel hk habs
    cases p with
    | nil => simp at hk
    | cons a as =>
      have hne : (a :: as) ≠ [] := by simp
      have habs0 : stat (a :: as) = .absent := by
        have h0 := habs 0 (Nat.succ_pos k)
        simpa using h0
      have hstep : walkAux stat (fuel + (k + 1)) (a :: as) internal
          = walkAux stat (fuel + k) (a :: as).dropLast
              ((a :: as).getLast hne :: internal) := by
        show walkAux stat ((fuel + k) + 1) (a :: as) internal = _
        simp only [walkAux, habs0]
      have hlen : (a :: as).dropLast.length = (a :: as).length - 1 := by
        simp
      have htake : ∀ m, m ≤ (a :: as).length - 1 →
          (a :: as).dropLast.take m = (a :: as).take m := by
        intro m hm
        rw [List.dropLast_eq_take, List.take_take, Nat.min_eq_left hm]
      have hdrop : ∀ m, m ≤ (a :: as).length - 1 →
          (a :: as).dropLast.drop m ++ [(a :: as).getLast hne]
            = (a :: as).drop m := by
        intro m hm
        have h1 : (a :: as).dropLast ++ [(a :: as).getLast hne] = a :: as :=
          List.dropLast_append_getLast hne
        calc (a :: as).dropLast.drop m ++ [(a :: as).getLast hne]
            = ((a :: as).dropLast ++ [(a :: as).getLast hne]).drop m := by
              rw [List.drop_append_of_le_length (by omega)]
          _ = (a :: as).drop m := by rw [h1]
      have hk' : k ≤ (a :: as).dropLast.length := by
        rw [hlen]; omega
      have habs' : ∀ j < k,
          stat ((a :: as).dropLast.take ((a :: as).dropLast.length - j)) = .absent := by
        intro j hj
        have e1 : (a :: as).dropLast.length - j = (a :: as).length - 1 - j := by
          rw [hlen]
        have e2 : (a :: as).length - (j + 1) = (a :: as).length - 1 - j := by
          omega
        rw [e1, htake ((a :: as).length - 1 - j) (by omega), ← e2]
        exact habs (j + 1) (by omega)
      rw [hstep, ih (a :: as).dropLast ((a :: as).getLast hne :: internal) fuel hk' habs']
      have e3 : (a :: as).dropLast.length - k = (a :: as).length - (k + 1) := by
        rw [hlen]; omega
      have e4 : (a :: as).length - (k + 1) ≤ (a :: as).length - 1 := by
        omega
      rw [e3, htake ((a :: as).length - (k + 1)) e4, List.append_cons,
        hdrop ((a :: as).length - (k + 1)) e4]

/-- C2: the resolver walks upward, stripping the last segment and
prepending it to the accumulated internal path, for at most 20
ascensions.  If the first non-absent ancestor (after `k` absent
strict-descendant prefixes) stats as a regular file, the walk succeeds
with that file as the archive and the stripped segments as the
internal path; if it stats as a directory first, the walk errors; and
if every ancestor within the depth bound is absent, the result is
not-found. -/
theorem resolver_upward_walk (stat : List String → StatR) (p : List String) (k : Nat)
    (hk20 : k < 20) (hklen : k ≤ p.length)
    (habs : ∀ j < k, stat (p.take (p.length - j)) = .absent) :
    (stat (p.take (p.length - k)) = .file →
      resolveArchivePath stat p = .found (p.take (p.length - k)) (p.drop (p.length - k))) ∧
    (stat (p.take (p.length - k)) = .dir → resolveArchivePath stat p = .notDir) ∧
    ((∀ j : Nat, j < 20 → j ≤ p.length → stat (p.take (p.length - j)) = .absent) →
      resolveArchivePath stat p = .notFound) := by
  have hmain : resolveArchivePath stat p
      = walkAux stat (20 - k) (p.take (p.length - k)) (p.drop (p.length - k) ++ []) := by
    have h20 : (20 - k) + k = 20 := by omega
    calc resolveArchivePath stat p = walkAux stat ((20 - k) + k) p [] := by
          rw [h20]; rfl
      _ = _ := walkAux_ascend stat k p [] (20 - k) hklen habs
  have hfuel : ∃ f, 20 - k = f + 1 := ⟨20 - k - 1, by omega⟩
  obtain ⟨f, hf⟩ := hfuel
  refine ⟨?_, ?_, ?_⟩
  · intro hfile
    rw [hmain, hf]
    simp only [walkAux, hfile]
    simp
  · intro hdir
    rw [hmain, hf]
    simp only [walkAux, hdir]
  · intro hall
    rcases le_or_lt 20 p.length with hge | hlt
    · have h := walkAux_ascend stat 20 p [] 0 hge
        (fun j hj => hall j hj (by omega))
      have : resolveArchivePath stat p = walkAux stat (0 + 20) p [] := rfl
      rw [this, h]
      simp only [walkAux]
    · have h := walkAux_ascend stat p.length p [] (20 - p.length)
        (Nat.le_refl _) (fun j hj => hall j (by omega) (by omega))
      have h20 : (20 - p.length) + p.length = 20 := by omega
      have hroot : stat ([] : List String) = .absent := by
        have := hall p.length (by omega) (Nat.le_refl _)
        simpa using this
      have hfuel2 : ∃ g, 20 - p.length = g + 1 := ⟨20 - p.length - 1, by omega⟩
      obtain ⟨g, hg⟩ := hfuel2
      calc resolveArchivePath stat p = walkAux stat ((20 - p.length) + p.length) p [] := by
            rw [h20]; rfl
        _ = walkAux stat (20 - p.length) (p.take (p.length - p.length))
              (p.drop (p.length - p.length) ++ []) := h
        _ = .notFound := by
            rw [Nat.sub_self]
            simp only [List.take_zero]
            rw [hg]
            simp only [walkAux, hroot]

/-- Witness for C2: the three branches of `resolver_upward_walk` at
concrete stat oracles — an archive file found one level up, a real
directory hit one level up, and a fully absent path. -/
theorem resolver_upward_walk_witness :
    resolveArchivePath
        (fun q => if q = ["a", "b"] then .file else .absent) ["a", "b", "c"]
      = .found ["a", "b"] ["c"] ∧
    resolveArchivePath
        (fun q => if q = ["x"] then .dir else .absent) ["x", "y"]
      = .notDir ∧
    resolveArchivePath (fun _ => .absent) ["z"] = .notFound := by
  refine ⟨?_, ?_, ?_⟩
  · exact (resolver_upward_walk (fun q => if q = ["a", "b"] then .file else .absent)
      ["a", "b", "c"] 1 (by decide) (by decide) (by decide)).1 (by decide)
  · exact (resolver_upward_walk (fun q => if q = ["x"] then .dir else .absent)
      ["x", "y"] 1 (by decide) (by decide) (by decide)).2.1 (by decide)
  · exact (resolver_upward_walk (fun _ => StatR.absent) ["z"] 0 (by decide) (by decide)
      (by decide)).2.2 (by intro j _ _; rfl)

/-! ## C6: scheduler deduplication and concurrency bound -/

/-- The drain loop preserves the scheduler's bookkeeping invariants and
exits only with saturated workers or an empty queue; it never touches
the cache. -/
theorem drainAux_invariant (m : String → Int) :
    ∀ (queue inF : List String) (act : Nat) (cache : List (String × SizeEntry)),
    inF.Nodup → act = inF.length → act ≤ FOLDER_SIZE_CONCURRENCY →
    (drainAux m queue inF act cache).inFlight.Nodup ∧
    (drainAux m queue inF act cache).active
      = (drainAux m queue inF act cache).inFlight.length ∧
    (drainAux m queue inF act cache).active ≤ FOLDER_SIZE_CONCURRENCY ∧
    ((drainAux m queue inF act cache).active = FOLDER_SIZE_CONCURRENCY ∨
      (drainAux m queue inF act cache).queue = []) ∧
    (drainAux m queue inF act cache).cache = cache := by
  intro queue
  induction queue with
  | nil =>
    intro inF act cache h1 h2 h3
    exact ⟨h1, h2, h3, Or.inr rfl, rfl⟩
  | cons p rest ih =>
    intro inF act cache h1 h2 h3
    by_cases hact : act < FOLDER_SIZE_CONCURRENCY
    · by_cases hfresh : (cacheFresh m cache p).isSome
      · simp only [drainAux, if_pos hact, if_pos hfresh]
        exact ih inF act cache h1 h2 h3
      · by_cases hin : p ∈ inF
        · simp only [drainAux, if_pos hact, if_neg hfresh, if_pos hin]
          exact ih inF act cache h1 h2 h3
        · have h1' : (p :: inF).Nodup := List.nodup_cons.mpr ⟨hin, h1⟩
          have h2' : act + 1 = (p :: inF).length := by simp [h2]
          simp only [drainAux, if_pos hact, if_neg hfresh, if_neg hin]
          exact ih (p :: inF) (act + 1) cache h1' h2' (by omega)
    · have hsat : act = FOLDER_SIZE_CONCURRENCY := by omega
      simp only [drainAux, if_neg hact]
      exact ⟨h1, h2, h3, Or.inl hsat, trivial⟩

/-- One scheduler event preserves the invariants. -/
theorem schedStep_invariant (s : SchedState) (e : SchedEvent)
    (h1 : s.inFlight.Nodup) (h2 : s.active = s.inFlight.length)
    (h3 : s.active ≤ FOLDER_SIZE_CONCURRENCY)
    (h4 : s.active = FOLDER_SIZE_CONCURRENCY ∨ s.queue = []) :
    (schedStep s e).inFlight.Nodup ∧
    (schedStep s e).active = (schedStep s e).inFlight.length ∧
    (schedStep s e).active ≤ FOLDER_SIZE_CONCURRENCY ∧
    ((schedStep s e).active = FOLDER_SIZE_CONCURRENCY ∨ (schedStep s e).queue = []) := by
  cases e with
  | schedule m p =>
    rw [show schedStep s (SchedEvent.schedule m p) = scheduleRow m p s from rfl]
    unfold scheduleRow
    by_cases hfresh : (cacheFresh m s.cache p).isSome
    · rw [if_pos hfresh]
      exact ⟨h1, h2, h3, h4⟩
    · rw [if_neg hfresh]
      by_cases hin : p ∈ s.inFlight
      · rw [if_pos hin]
        exact ⟨h1, h2, h3, h4⟩
      · rw [if_neg hin]
        unfold enqueueFolderSize drain
        have h := drainAux_invariant m (s.queue ++ [p]) s.inFlight s.active s.cache h1 h2 h3
        exact ⟨h.1, h.2.1, h.2.2.1, h.2.2.2.1⟩
  | complete m p res =>
    rw [show schedStep s (SchedEvent.complete m p res) = EzFm.complete m p res s from rfl]
    unfold EzFm.complete
    by_cases hin : p ∈ s.inFlight
    · rw [if_pos hin]
      have hpos : 0 < s.inFlight.length := List.length_pos_of_mem hin
      have herase : (s.inFlight.erase p).length = s.inFlight.length - 1 :=
        List.length_erase_of_mem hin
      have hnd : (s.inFlight.erase p).Nodup := h1.erase p
      cases res with
      | some entry =>
        unfold drain
        have h := drainAux_invariant m s.queue (s.inFlight.erase p) (s.active - 1)
          (cacheSet s.cache p entry) hnd (by omega) (by omega)
        exact ⟨h.1, h.2.1, h.2.2.1, h.2.2.2.1⟩
      | none =>
        unfold drain
        have h := drainAux_invariant m s.queue (s.inFlight.erase p) (s.active - 1)
          s.cache hnd (by omega) (by omega)
        exact ⟨h.1, h.2.1, h.2.2.1, h.2.2.2.1⟩
    · rw [if_neg hin]
      exact ⟨h1, h2, h3, h4⟩
  | clearQueue =>
    exact ⟨h1, h2, h3, Or.inr rfl⟩

/-- C6: after any sequence of scheduler events (visible rows being
scheduled — including re-requests and duplicate queue entries —
completions, and queue clears), the in-flight set holds at most one
entry per path (it is duplicate-free), the number of active
computations equals the number of in-flight paths and never exceeds
the concurrency bound 3, and no worker slot sits free while work is
queued (the workers are saturated or the queue is empty, because every
completion immediately re-drains the queue). -/
theorem scheduler_inflight_invariant (events : List SchedEvent) :
    (schedRun events).inFlight.Nodup ∧
    (schedRun events).active = (schedRun events).inFlight.length ∧
    (schedRun events).active ≤ FOLDER_SIZE_CONCURRENCY ∧
    ((schedRun events).active = FOLDER_SIZE_CONCURRENCY ∨
      (schedRun events).queue = []) := by
  have main : ∀ (evs : List SchedEvent) (s : SchedState),
      s.inFlight.Nodup → s.active = s.inFlight.length →
      s.active ≤ FOLDER_SIZE_CONCURRENCY →
      (s.active = FOLDER_SIZE_CONCURRENCY ∨ s.queue = []) →
      (evs.foldl schedStep s).inFlight.Nodup ∧
      (evs.foldl schedStep s).active = (evs.foldl schedStep s).inFlight.length ∧
      (evs.foldl schedStep s).active ≤ FOLDER_SIZE_CONCURRENCY ∧
      ((evs.foldl schedStep s).active = FOLDER_SIZE_CONCURRENCY ∨
        (evs.foldl schedStep s).queue = []) := by
    intro evs
    induction evs with
    | nil => intro s h1 h2 h3 h4; exact ⟨h1, h2, h3, h4⟩
    | cons e rest ih =>
      intro s h1 h2 h3 h4
      have h := schedStep_invariant s e h1 h2 h3 h4
      exact ih (schedStep s e) h.1 h.2.1 h.2.2.1 h.2.2.2
  exact main events schedInit (by simp [schedInit]) (by simp [schedInit])
    (by simp [schedInit, FOLDER_SIZE_CONCURRENCY]) (Or.inr rfl)

/-! ## C9: size-cache freshness discipline

The scheduling lookup (`scheduleVisibleFolderSizes` and the re-check in
`drainFolderSizeQueue`) compares only the stored modification time with
the current one; no time-to-live is consulted there, and the cache
entries it writes carry no insertion timestamp at all, so entry age
cannot influence the recomputation decision. -/

/-- Counterexample to C9 as stated: with a cached entry whose stored
mtime (5) matches the current mtime, the scheduler uses the cache — the
queued path is dropped without starting any computation and the row
update path does not enqueue — even though the state carries no
insertion time, so this holds however long ago the entry was written
(in particular, longer than the 5-minute TTL ago).  The claimed
TTL-based staleness would instead require a recomputation (an in-flight
entry) to start. -/
theorem size_cache_ttl_counterexample :
    FOLDER_SIZE_CACHE_TTL_MS = 300000 ∧
    drain (fun _ => 5) ⟨["p"], [], 0, [("p", ⟨7, 5⟩)]⟩
      = ⟨[], [], 0, [("p", ⟨7, 5⟩)]⟩ ∧
    scheduleRow (fun _ => 5) "p" ⟨[], [], 0, [("p", ⟨7, 5⟩)]⟩
      = ⟨[], [], 0, [("p", ⟨7, 5⟩)]⟩ := by
  exact ⟨rfl, rfl, rfl⟩

/-- C9 amended: a cached size is used (no recomputation is started)
exactly when its stored modification time equals the directory's
current modification time; otherwise the path's size is recomputed.
No time-to-live enters the decision: the lookup depends only on the
mtime comparison. -/
theorem size_cache_lookup_is_mtime_only (m : String → Int)
    (cache : List (String × SizeEntry)) (p : String) :
    (∀ c, cacheGet cache p = some c → c.mtime = m p →
      drain m ⟨[p], [], 0, cache⟩ = ⟨[], [], 0, cache⟩ ∧
      scheduleRow m p ⟨[], [], 0, cache⟩ = ⟨[], [], 0, cache⟩) ∧
    ((∀ c, cacheGet cache p = some c → c.mtime ≠ m p) →
      drain m ⟨[p], [], 0, cache⟩ = ⟨[], [p], 1, cache⟩ ∧
      scheduleRow m p ⟨[], [], 0, cache⟩ = ⟨[], [p], 1, cache⟩) := by
  constructor
  · intro c hc hmt
    have hfresh : (cacheFresh m cache p).isSome := by
      simp [cacheFresh, hc, hmt]
    constructor
    · show drainAux m [p] [] 0 cache = _
      rw [drainAux, if_pos (by decide), if_pos hfresh]
      rfl
    · unfold scheduleRow
      rw [if_pos hfresh]
  · intro hstale
    have hfresh : ¬ (cacheFresh m cache p).isSome := by
      unfold cacheFresh
      cases hget : cacheGet cache p with
      | none => simp
      | some c => simp [hstale c hget]
    have hdrain : drainAux m [p] [] 0 cache = ⟨[], [p], 1, cache⟩ := by
      rw [drainAux, if_pos (by decide), if_neg hfresh, if_neg (by simp)]
      rfl
    refine ⟨hdrain, ?_⟩
    unfold scheduleRow
    rw [if_neg hfresh, if_neg (by simp)]
    exact hdrain

/-- Witness for C9 (amended): a matching entry is reused, a
mismatching one triggers recomputation. -/
theorem size_cache_lookup_is_mtime_only_witness :
    (drain (fun _ => 5) ⟨["q"], [], 0, [("q", ⟨7, 5⟩)]⟩
      = ⟨[], [], 0, [("q", ⟨7, 5⟩)]⟩ ∧
     scheduleRow (fun _ => 5) "q" ⟨[], [], 0, [("q", ⟨7, 5⟩)]⟩
      = ⟨[], [], 0, [("q", ⟨7, 5⟩)]⟩) ∧
    (drain (fun _ => 6) ⟨["q"], [], 0, [("q", ⟨7, 5⟩)]⟩
      = ⟨[], ["q"], 1, [("q", ⟨7, 5⟩)]⟩ ∧
     scheduleRow (fun _ => 6) "q" ⟨[], [], 0, [("q", ⟨7, 5⟩)]⟩
      = ⟨[], ["q"], 1, [("q", ⟨7, 5⟩)]⟩) := by
  constructor
  · exact (size_cache_lookup_is_mtime_only (fun _ => 5) [("q", ⟨7, 5⟩)] "q").1
      ⟨7, 5⟩ (by rfl) (by decide)
  · refine (size_cache_lookup_is_mtime_only (fun _ => 6) [("q", ⟨7, 5⟩)] "q").2 ?_
    intro c hc
    have : c = ⟨7, 5⟩ := by
      have h : some c = some (⟨7, 5⟩ : SizeEntry) := by rw [← hc]; rfl
      exact (Option.some.injEq _ _).mp h.symm ▸ rfl
    rw [this]
    decide

/-! ## C1: archive child synthesis -/

/-- One step of the archive record loop: a record is kept exactly when
it is a strict descendant of the internal path whose child name has
not been seen; keeping it emits the synthesized entry and marks the
name seen. -/
theorem buildArchiveEntries_cons (fullPath ni : String) (seen : List String)
    (r : SevenZipRecord) (rs : List SevenZipRecord) :
    buildArchiveEntries fullPath ni seen (r :: rs) =
      if keepRec ni r ∧ childName ni r ∉ seen then
        mkArchiveEntry fullPath ni r ::
          buildArchiveEntries fullPath ni (childName ni r :: seen) rs
      else buildArchiveEntries fullPath ni seen rs := by
  by_cases hP : r.Path = ""
  · simp [buildArchiveEntries, keepRec, hP]
  · by_cases hni : ni = ""
    · subst hni
      by_cases hrel : normSlash r.Path = ""
      · simp [buildArchiveEntries, keepRec, relOf, hP, hrel]
      · simp [buildArchiveEntries, keepRec, relOf, childName, childIsDir,
          mkArchiveEntry, hP, hrel]
    · by_cases hsw : strStartsWith (normSlash r.Path) (ni ++ "/")
      · by_cases hrel : strDrop (normSlash r.Path) (strLen ni + 1) = ""
        · simp [buildArchiveEntries, keepRec, relOf, hP, hni, hsw, hrel]
        · simp [buildArchiveEntries, keepRec, relOf, childName, childIsDir,
            mkArchiveEntry, hP, hni, hsw, hrel]
      · simp [buildArchiveEntries, keepRec, relOf, hP, hni, hsw]

/-- Names emitted by the archive loop: they are duplicate-free, avoid
the already-seen set, and are exactly the first relative segments of
the kept (strict-descendant) records. -/
theorem buildArchiveEntries_names (fullPath ni : String) :
    ∀ (rs : List SevenZipRecord) (seen : List String),
    ((buildArchiveEntries fullPath ni seen rs).map FileEntry.name).Nodup ∧
    (∀ e ∈ buildArchiveEntries fullPath ni seen rs, e.name ∉ seen) ∧
    (∀ n : String, (∃ e ∈ buildArchiveEntries fullPath ni seen rs, e.name = n) ↔
      (n ∉ seen ∧ ∃ r ∈ rs, keepRec ni r ∧ childName ni r = n)) := by
  intro rs
  induction rs with
  | nil =>
    intro seen
    simp [buildArchiveEntries]
  | cons r rs ih =>
    intro seen
    rw [buildArchiveEntries_cons]
    by_cases hkeep : keepRec ni r ∧ childName ni r ∉ seen
    · rw [if_pos hkeep]
      obtain ⟨hk, hns⟩ := hkeep
      have IH := ih (childName ni r :: seen)
      have hname : (mkArchiveEntry fullPath ni r).name = childName ni r := rfl
      refine ⟨?_, ?_, ?_⟩
      · rw [List.map_cons, List.nodup_cons, hname]
        constructor
        · intro hmem
          rw [List.mem_map] at hmem
          obtain ⟨e, he, hEn⟩ := hmem
          have h2 := IH.2.1 e he
          rw [hEn] at h2
          exact h2 (List.mem_cons_self _ _)
        · exact IH.1
      · intro e he
        rcases List.mem_cons.mp he with rfl | he'
        · rw [hname]
          exact hns
        · intro hmem
          exact IH.2.1 e he' (List.mem_cons_of_mem _ hmem)
      · intro n
        constructor
        · rintro ⟨e, he, rfl⟩
          rcases List.mem_cons.mp he with rfl | he'
          · rw [hname]
            exact ⟨hns, r, List.mem_cons_self _ _, hk, rfl⟩
          · have h2 := (IH.2.2 e.name).mp ⟨e, he', rfl⟩
            obtain ⟨hnot, r', hr', hk', hcn'⟩ := h2
            exact ⟨fun hs => hnot (List.mem_cons_of_mem _ hs),
              r', List.mem_cons_of_mem _ hr', hk', hcn'⟩
        · rintro ⟨hn, r', hr', hk', hcn'⟩
          by_cases heq : n = childName ni r
          · refine ⟨mkArchiveEntry fullPath ni r, List.mem_cons_self _ _, ?_⟩
            rw [hname, heq]
          · rcases List.mem_cons.mp hr' with rfl | hr''
            · exact absurd hcn'.symm heq
            · have h3 := (IH.2.2 n).mpr
                ⟨by
                  intro hmem
                  rcases List.mem_cons.mp hmem with h | h
                  · exact heq h
                  · exact hn h,
                 r', hr'', hk', hcn'⟩
              obtain ⟨e, he, hEn⟩ := h3
              exact ⟨e, List.mem_cons_of_mem _ he, hEn⟩
    · rw [if_neg hkeep]
      have IH := ih seen
      refine ⟨IH.1, IH.2.1, ?_⟩
      intro n
      rw [IH.2.2 n]
      constructor
      · rintro ⟨hn, r', hr', hk', hcn'⟩
        exact ⟨hn, r', List.mem_cons_of_mem _ hr', hk', hcn'⟩
      · rintro ⟨hn, r', hr', hk', hcn'⟩
        rcases List.mem_cons.mp hr' with rfl | hr''
        · exfalso
          rw [not_and_or] at hkeep
          rcases hkeep with h | h
          · exact h hk'
          · rw [not_not] at h
            rw [hcn'] at h
            exact hn h
        · exact ⟨hn, r', hr'', hk', hcn'⟩

/-- Every emitted entry is synthesized from the first kept record
bearing its child name: first occurrence wins. -/
theorem buildArchiveEntries_first (fullPath ni : String) :
    ∀ (rs : List SevenZipRecord) (seen : List String),
    ∀ e ∈ buildArchiveEntries fullPath ni seen rs,
    ∃ r, rs.find? (fun r => keepRec ni r && (childName ni r == e.name)) = some r ∧
      e = mkArchiveEntry fullPath ni r := by
  intro rs
  induction rs with
  | nil =>
    intro seen e he
    simp [buildArchiveEntries] at he
  | cons r rs ih =>
    intro seen e he
    rw [buildArchiveEntries_cons] at he
    by_cases hkeep : keepRec ni r ∧ childName ni r ∉ seen
    · rw [if_pos hkeep] at he
      rcases List.mem_cons.mp he with rfl | he'
      · refine ⟨r, ?_, rfl⟩
        apply List.find?_cons_of_pos
        have hname : (mkArchiveEntry fullPath ni r).name = childName ni r := rfl
        rw [hname]
        simp [hkeep.1]
      · obtain ⟨r', hfind, hE⟩ := ih (childName ni r :: seen) e he'
        refine ⟨r', ?_, hE⟩
        rw [List.find?_cons_of_neg, hfind]
        have hne := (buildArchiveEntries_names fullPath ni rs
          (childName ni r :: seen)).2.1 e he'
        simp only [Bool.and_eq_true, beq_iff_eq, not_and]
        intro _ hcn
        exact hne (hcn ▸ List.mem_cons_self _ _)
    · rw [if_neg hkeep] at he
      obtain ⟨r', hfind, hE⟩ := ih seen e he
      refine ⟨r', ?_, hE⟩
      rw [List.find?_cons_of_neg, hfind]
      have hnotseen := (buildArchiveEntries_names fullPath ni rs seen).2.1 e he
      simp only [Bool.and_eq_true, beq_iff_eq, not_and]
      intro hkr hcn
      rw [not_and_or] at hkeep
      rcases hkeep with h | h
      · exact h hkr
      · rw [not_not] at h
        exact hnotseen (hcn ▸ h)

/-- C1: listing an internal archive path synthesizes one child per
distinct first relative segment of the records that are strict
descendants of the internal path: names are duplicate-free, a name
appears exactly when some strict-descendant record contributes it,
every entry is synthesized from the *first* such record (first
occurrence wins) and is a directory exactly when that record's
relative path has more than one segment or its attributes mark a
directory.  In particular, for an archive holding `subdir/a.txt` and
`subdir/nested/b.txt`, listing `subdir` yields exactly `a.txt` (file)
and `nested` (directory). -/
theorem archive_listing_child_synthesis (fullPath internalPath : String)
    (records : List SevenZipRecord) :
    ((handleArchiveListing fullPath internalPath records).map FileEntry.name).Nodup ∧
    (∀ n : String,
      (∃ e ∈ handleArchiveListing fullPath internalPath records, e.name = n) ↔
      (∃ r ∈ records, keepRec (normSlash internalPath) r ∧
        childName (normSlash internalPath) r = n)) ∧
    (∀ e ∈ handleArchiveListing fullPath internalPath records,
      ∃ r, records.find? (fun r => keepRec (normSlash internalPath) r &&
          (childName (normSlash internalPath) r == e.name)) = some r ∧
        e = mkArchiveEntry fullPath (normSlash internalPath) r ∧
        e.isDirectory = childIsDir (normSlash internalPath) r) ∧
    ((handleArchiveListing "/archive.zip/subdir" "subdir"
        [⟨"subdir/a.txt", "", "5", ""⟩, ⟨"subdir/nested/b.txt", "", "3", ""⟩]).map
      (fun e => (e.name, e.isDirectory, e.isFile))
      = [("nested", true, false), ("a.txt", false, true)]) := by
  have hperm : (handleArchiveListing fullPath internalPath records).Perm
      (buildArchiveEntries fullPath (normSlash internalPath) [] records) :=
    List.perm_insertionSort entryRel _
  have hnames := buildArchiveEntries_names fullPath (normSlash internalPath) records []
  refine ⟨?_, ?_, ?_, by decide⟩
  · exact ((hperm.map FileEntry.name).nodup_iff).mpr hnames.1
  · intro n
    have h3 := hnames.2.2 n
    constructor
    · rintro ⟨e, he, rfl⟩
      exact ((h3.mp ⟨e, hperm.mem_iff.mp he, rfl⟩)).2
    · intro h
      obtain ⟨e, he, hEn⟩ := h3.mpr ⟨by simp, h⟩
      exact ⟨e, hperm.mem_iff.mpr he, hEn⟩
  · intro e he
    obtain ⟨r, hfind, hE⟩ := buildArchiveEntries_first fullPath (normSlash internalPath)
      records [] e (hperm.mem_iff.mp he)
    refine ⟨r, hfind, hE, ?_⟩
    rw [hE]
    rfl

/-- Witness for C1: a one-record archive listed at its internal
directory. -/
theorem archive_listing_child_synthesis_witness :
    ((handleArchiveListing "/a.zip/d" "d" [⟨"d/x.txt", "", "1", ""⟩]).map
      FileEntry.name).Nodup ∧
    (∃ e ∈ handleArchiveListing "/a.zip/d" "d" [⟨"d/x.txt", "", "1", ""⟩],
      e.name = "x.txt") := by
  have h := archive_listing_child_synthesis "/a.zip/d" "d" [⟨"d/x.txt", "", "1", ""⟩]
  refine ⟨h.1, (h.2.1 "x.txt").mpr ?_⟩
  exact ⟨⟨"d/x.txt", "", "1", ""⟩, by decide, by decide, by decide⟩

/-! ## C7: listing order and name uniqueness -/

/-- The lexicographic comparison is total. -/
theorem lexLE_total : ∀ (as bs : List Char), lexLE as bs = true ∨ lexLE bs as = true := by
  intro as
  induction as with
  | nil =>
    intro bs
    left
    rfl
  | cons a as ih =>
    intro bs
    cases bs with
    | nil =>
      right
      rfl
    | cons b bs =>
      rcases lt_trichotomy a b with h | h | h
      · left
        simp [lexLE, h]
      · subst h
        rcases ih bs with h2 | h2
        · left
          simp [lexLE, h2]
        · right
          simp [lexLE, h2]
      · right
        simp [lexLE, h]

/-- The lexicographic comparison is transitive. -/
theorem lexLE_trans : ∀ (as bs cs : List Char),
    lexLE as bs = true → lexLE bs cs = true → lexLE as cs = true := by
  intro as
  induction as with
  | nil =>
    intro bs cs _ _
    rfl
  | cons a as ih =>
    intro bs cs h1 h2
    cases bs with
    | nil => simp [lexLE] at h1
    | cons b bs =>
      cases cs with
      | nil => simp [lexLE] at h2
      | cons c cs =>
        by_cases hab : a < b
        · by_cases hbc : b < c
          · simp [lexLE, lt_trans hab hbc]
          · by_cases hbc' : b = c
            · subst hbc'
              simp [lexLE, hab]
            · simp [lexLE, hbc, hbc'] at h2
        · by_cases hab' : a = b
          · subst hab'
            simp only [lexLE, if_neg hab, if_pos rfl] at h1
            by_cases hbc : a < c
            · simp [lexLE, hbc]
            · by_cases hbc' : a = c
              · subst hbc'
                simp only [lexLE, if_neg hbc, if_pos rfl] at h2
                simp only [lexLE, if_neg hbc, if_pos rfl]
                exact ih bs cs h1 h2
              · simp [lexLE, hbc, hbc'] at h2
          · simp [lexLE, hab, hab'] at h1

/-- The listing comparator is total. -/
theorem entryRel_total : ∀ (a b : FileEntry), entryRel a b ∨ entryRel b a := by
  intro a b
  cases ha : a.isDirectory <;> cases hb : b.isDirectory <;>
    simp [entryRel, entryLE, ha, hb] <;>
    exact lexLE_total _ _

/-- The listing comparator is transitive. -/
theorem entryRel_trans : ∀ (a b c : FileEntry),
    entryRel a b → entryRel b c → entryRel a c := by
  intro a b c h1 h2
  cases ha : a.isDirectory <;> cases hb : b.isDirectory <;> cases hc : c.isDirectory <;>
    simp [entryRel, entryLE, ha, hb, hc] at h1 h2 ⊢ <;>
    exact lexLE_trans _ _ _ h1 h2

/-- The shared sort produces a comparator-sorted list. -/
theorem sortEntries_sorted (es : List FileEntry) :
    (sortEntries es).Pairwise entryRel :=
  @List.sorted_insertionSort FileEntry entryRel _ ⟨entryRel_total⟩ ⟨entryRel_trans⟩ es

/-- The comparator implies the spec's ordering statement. -/
theorem entryRel_claimOrder (a b : FileEntry) : entryRel a b → claimOrder a b := by
  intro h
  cases ha : a.isDirectory <;> cases hb : b.isDirectory <;>
    simp [entryRel, entryLE, ha, hb] at h <;>
    simp [claimOrder, ha, hb, h]

/-- C7: both listing handlers return entries with pairwise-distinct
names (given, for the real-directory branch, the distinct names
`readdir` produces), ordered with all directories before all files and
case-insensitive lexicographically inside each group. -/
theorem listing_sorted_and_unique :
    (∀ (dirPath : String) (items : List DirEnt), (items.map DirEnt.name).Nodup →
      ((getDirectoryContents dirPath items).map FileEntry.name).Nodup ∧
      (getDirectoryContents dirPath items).Pairwise claimOrder) ∧
    (∀ (fullPath internalPath : String) (records : List SevenZipRecord),
      ((handleArchiveListing fullPath internalPath records).map FileEntry.name).Nodup ∧
      (handleArchiveListing fullPath internalPath records).Pairwise claimOrder) := by
  constructor
  · intro dirPath items hnd
    constructor
    · have hperm : (getDirectoryContents dirPath items).Perm
          (items.map (toEntry dirPath)) := List.perm_insertionSort entryRel _
      have hmapmap : (items.map (toEntry dirPath)).map FileEntry.name
          = items.map DirEnt.name := by
        rw [List.map_map]
        rfl
      refine ((hperm.map FileEntry.name).nodup_iff).mpr ?_
      rw [hmapmap]
      exact hnd
    · exact List.Pairwise.imp (fun h => entryRel_claimOrder _ _ h)
        (sortEntries_sorted (items.map (toEntry dirPath)))
  · intro fullPath internalPath records
    constructor
    · have hperm : (handleArchiveListing fullPath internalPath records).Perm
          (buildArchiveEntries fullPath (normSlash internalPath) [] records) :=
        List.perm_insertionSort entryRel _
      exact ((hperm.map FileEntry.name).nodup_iff).mpr
        (buildArchiveEntries_names fullPath (normSlash internalPath) records []).1
    · exact List.Pairwise.imp (fun h => entryRel_claimOrder _ _ h)
        (sortEntries_sorted (buildArchiveEntries fullPath (normSlash internalPath) [] records))

/-- Witness for C7: a concrete real-directory listing (with distinct
child names) and a concrete archive listing. -/
theorem listing_sorted_and_unique_witness :
    (((getDirectoryContents "/home/u"
        [⟨"b.txt", false, true, false, some ⟨3, "m1", "c1"⟩, none⟩,
         ⟨"Adir", true, false, false, some ⟨0, "m2", "c2"⟩, none⟩]).map
      FileEntry.name).Nodup ∧
     (getDirectoryContents "/home/u"
        [⟨"b.txt", false, true, false, some ⟨3, "m1", "c1"⟩, none⟩,
         ⟨"Adir", true, false, false, some ⟨0, "m2", "c2"⟩, none⟩]).Pairwise claimOrder) ∧
    (((handleArchiveListing "/a.zip" ""
        [⟨"z.txt", "", "4", ""⟩, ⟨"dir", "D", "0", ""⟩]).map FileEntry.name).Nodup ∧
     (handleArchiveListing "/a.zip" ""
        [⟨"z.txt", "", "4", ""⟩, ⟨"dir", "D", "0", ""⟩]).Pairwise claimOrder) := by
  constructor
  · exact listing_sorted_and_unique.1 "/home/u"
      [⟨"b.txt", false, true, false, some ⟨3, "m1", "c1"⟩, none⟩,
       ⟨"Adir", true, false, false, some ⟨0, "m2", "c2"⟩, none⟩] (by decide)
  · exact listing_sorted_and_unique.2 "/a.zip" ""
      [⟨"z.txt", "", "4", ""⟩, ⟨"dir", "D", "0", ""⟩]

/-! ## C3: error handling across a batch -/

/-- Counterexample to C3 as stated: in a two-item copy batch whose
first item fails (its source does not exist), the handler returns the
single aggregate error, the second item is never attempted (its
destination is never created), and the batch does not report success —
even though the second item on its own would copy fine (third
conjunct). -/
theorem batch_abort_counterexample :
    (runBatch (fun _ _ => false) 4
        [⟨["a"], ["d", "a"]⟩, ⟨["b"], ["d", "b"]⟩] .copy
        (.dir [("b", .file 2), ("d", .dir [])])).2 = some .statFail ∧
    lookup (runBatch (fun _ _ => false) 4
        [⟨["a"], ["d", "a"]⟩, ⟨["b"], ["d", "b"]⟩] .copy
        (.dir [("b", .file 2), ("d", .dir [])])).1.fsys ["d", "b"] = none ∧
    (runBatch (fun _ _ => false) 4 [⟨["b"], ["d", "b"]⟩] .copy
        (.dir [("b", .file 2), ("d", .dir [])])).2 = none := by
  exact ⟨rfl, rfl, rfl⟩

/-- C3 amended: the execution phase has a single surrounding
try/catch, so an error escaping one item's processing (a copy error in
copy mode, or an error in the move fallback) aborts the batch at once:
the remaining items are not attempted and the one error is reported as
the batch result.  Only a successfully handled item lets the loop
continue; the only per-item recovery is the move-mode rename fallback. -/
theorem batch_abort_on_item_error (exdev : List String → List String → Bool)
    (total : Nat) (itemSizes : List (List String × Nat)) (fuel : Nat)
    (it : TransferItem) (rest : List TransferItem) (st st' : BState) (e : FsErr) :
    (copyRecursive total fuel it.source it.dest st = (st', some e) →
      execItems exdev total itemSizes fuel .copy (it :: rest) st = (st', some e)) ∧
    (renameFs exdev st.fsys it.source it.dest = none →
      copyRecursive total fuel it.source it.dest st = (st', some e) →
      execItems exdev total itemSizes fuel .move (it :: rest) st = (st', some e)) ∧
    (copyRecursive total fuel it.source it.dest st = (st', none) →
      execItems exdev total itemSizes fuel .copy (it :: rest) st
        = execItems exdev total itemSizes fuel .copy rest st') := by
  refine ⟨?_, ?_, ?_⟩
  · intro h
    simp only [execItems, h]
  · intro hren h
    simp only [execItems, hren, h]
  · intro h
    simp only [execItems, h]

/-- Witness for C3 (amended): the failing two-item batch of the
counterexample, stepped through the amended theorem. -/
theorem batch_abort_on_item_error_witness :
    execItems (fun _ _ => false) 2 [(["a"], 0), (["b"], 2)] 4 .copy
        [⟨["a"], ["d", "a"]⟩, ⟨["b"], ["d", "b"]⟩]
        { fsys := .dir [("b", .file 2), ("d", .dir [])], processedBytes := 0,
          processedFiles := 0, events := [] }
      = ({ fsys := .dir [("b", .file 2), ("d", .dir [])], processedBytes := 0,
           processedFiles := 0, events := [] }, some .statFail) :=
  (batch_abort_on_item_error (fun _ _ => false) 2 [(["a"], 0), (["b"], 2)] 4
    ⟨["a"], ["d", "a"]⟩ [⟨["b"], ["d", "b"]⟩]
    { fsys := .dir [("b", .file 2), ("d", .dir [])], processedBytes := 0,
      processedFiles := 0, events := [] }
    { fsys := .dir [("b", .file 2), ("d", .dir [])], processedBytes := 0,
      processedFiles := 0, events := [] } .statFail).1 (by rfl)

/-! ## C5: move semantics -/

/-- C5: in move mode the engine tries the atomic rename first.  On
success it credits the whole recorded byte total for the item's source
path at once and emits exactly one progress event; on failure it falls
back to the recursive copy (the copy path's own function) followed by
recursive deletion of the source.  For a single-item batch the
credited amount is precisely the scan phase's byte total of the
source subtree. -/
theorem move_semantics (exdev : List String → List String → Bool) (fuel : Nat)
    (world : FsNode) (it : TransferItem) (rest : List TransferItem)
    (total : Nat) (sizes : List (List String × Nat)) (st : BState) :
    (∀ f', renameFs exdev st.fsys it.source it.dest = some f' →
      execItems exdev total sizes fuel .move (it :: rest) st
        = execItems exdev total sizes fuel .move rest
            (reportProgress total
              { st with
                fsys := f',
                processedBytes := st.processedBytes + itemSizesGet sizes it.source })) ∧
    (renameFs exdev st.fsys it.source it.dest = none →
      execItems exdev total sizes fuel .move (it :: rest) st
        = (match copyRecursive total fuel it.source it.dest st with
           | (st', some e) => (st', some e)
           | (st', none) => execItems exdev total sizes fuel .move rest
               { st' with fsys := removeAt st'.fsys it.source })) ∧
    (∀ f', renameFs exdev world it.source it.dest = some f' →
      runBatch exdev fuel [it] .move world
        = ({ fsys := f', processedBytes := scanBytes world it.source,
             processedFiles := 0,
             events := [pct (totalBytesOf world [it]) (scanBytes world it.source)] },
           none)) := by
  refine ⟨?_, ?_, ?_⟩
  · intro f' hren
    simp only [execItems, hren]
  · intro hren
    simp only [execItems, hren]
  · intro f' hren
    have hsz : itemSizesGet (itemSizesOf world [it]) it.source
        = scanBytes world it.source := by
      simp [itemSizesOf, sizesAdd, itemSizesGet]
    show execItems exdev (totalBytesOf world [it]) (itemSizesOf world [it]) fuel .move
        [it] { fsys := world, processedBytes := 0, processedFiles := 0, events := [] }
      = _
    simp only [execItems, hren, hsz, reportProgress, Nat.zero_add, List.nil_append]

/-- Witness for C5: moving a 5-byte file into an existing directory on
the same device (rename succeeds, one 100% event), and a cross-device
move (rename fails, fallback equality). -/
theorem move_semantics_witness :
    runBatch (fun _ _ => false) 5 [⟨["a"], ["d", "a"]⟩] .move
        (.dir [("a", .file 5), ("d", .dir [])])
      = ({ fsys := .dir [("d", .dir [("a", .file 5)])], processedBytes := 5,
           processedFiles := 0, events := [pct 5 5] }, none) ∧
    execItems (fun _ _ => true) 5 [(["a"], 5)] 5 .move [⟨["a"], ["d", "a"]⟩]
        { fsys := .dir [("a", .file 5), ("d", .dir [])], processedBytes := 0,
          processedFiles := 0, events := [] }
      = (match copyRecursive 5 5 ["a"] ["d", "a"]
            { fsys := .dir [("a", .file 5), ("d", .dir [])], processedBytes := 0,
              processedFiles := 0, events := [] } with
         | (st', some e) => (st', some e)
         | (st', none) => execItems (fun _ _ => true) 5 [(["a"], 5)] 5 .move []
             { st' with fsys := removeAt st'.fsys ["a"] }) := by
  constructor
  · have h := (move_semantics (fun _ _ => false) 5
      (.dir [("a", .file 5), ("d", .dir [])]) ⟨["a"], ["d", "a"]⟩ [] 5 [] ⟨.dir [], 0, 0, []⟩).2.2
      (.dir [("d", .dir [("a", .file 5)])]) (by rfl)
    rw [h]
    rfl
  · exact (move_semantics (fun _ _ => true) 5 (.dir []) ⟨["a"], ["d", "a"]⟩ [] 5
      [(["a"], 5)]
      { fsys := .dir [("a", .file 5), ("d", .dir [])], processedBytes := 0,
        processedFiles := 0, events := [] }).2.1 (by rfl)

/-! ## C10: move fallback and source preservation -/

/-- Association-list lookup after a cons. -/
theorem findChild_cons (k : String) (v : FsNode) (cs : List (String × FsNode)) (y : String) :
    findChild ((k, v) :: cs) y = if k = y then some v else findChild cs y := by
  by_cases h : k = y <;> simp [findChild, List.find?_cons, h]

theorem findChild_mapSet (cs : List (String × FsNode)) (x : String) (n : FsNode)
    (y : String) :
    findChild (cs.map (fun c => if c.1 = x then (x, n) else c)) y =
      if y = x then
        (if (cs.find? (fun c => c.1 = x)).isSome then some n else none)
      else findChild cs y := by
  induction cs with
  | nil => simp [findChild]
  | cons c cs ihc =>
    obtain ⟨k, v⟩ := c
    by_cases hc : k = x
    · by_cases hy : y = x <;>
        simp_all [findChild_cons, List.find?_cons] <;>
        by_cases hk : k = y <;> simp_all
    · by_cases hy : y = x
      · subst hy
        simp only [List.map_cons]
        rw [show (if ((k, v) : String × FsNode).1 = y then (y, n) else (k, v)) = (k, v)
          by simp [hc]]
        rw [findChild_cons, if_neg hc, ihc]
        have hred : List.find? (fun c => decide (c.1 = y)) ((k, v) :: cs)
            = List.find? (fun c => decide (c.1 = y)) cs := by
          rw [List.find?_cons_of_neg]
          simp [hc]
        rw [if_pos rfl, if_pos trivial, hred]
      · simp_all [findChild_cons, List.find?_cons]

theorem findChild_setChild (cs : List (String × FsNode)) (x : String) (n : FsNode)
    (y : String) :
    findChild (setChild cs x n) y = if y = x then some n else findChild cs y := by
  unfold setChild
  by_cases hex : (cs.find? (fun c => c.1 = x)).isSome
  · rw [if_pos hex, findChild_mapSet]
    by_cases hy : y = x
    · rw [if_pos hy, if_pos hy, if_pos hex]
    · rw [if_neg hy, if_neg hy]
  · rw [if_neg hex]
    have hnone : cs.find? (fun c => c.1 = x) = none := by
      rcases h : cs.find? (fun c => c.1 = x) with _ | c
      · exact h
      · rw [h] at hex
        simp at hex
    by_cases hy : y = x
    · subst hy
      simp [findChild, List.find?_append, hnone]
    · simp only [findChild, List.find?_append]
      have htail : List.find? (fun c => decide (c.1 = y)) [(x, n)] = none := by
        simp
        intro h
        exact absurd h.symm hy
      rw [htail, if_neg hy]
      simp


/-- A successful `writeFile` changes lookups only at the written
path's ancestors and descendants. -/
theorem writeFile_frame :
    ∀ (p : List String) (root : FsNode) (sz : Nat) (f' : FsNode),
    writeFile root p sz = some f' →
    ∀ q : List String, ¬ (p <+: q) → ¬ (q <+: p) → lookup f' q = lookup root q := by
  intro p
  induction p with
  | nil =>
    intro root sz f' h q hq1 hq2
    cases root <;> simp [writeFile] at h
  | cons x p' ih =>
    intro root sz f' h q hq1 hq2
    cases root with
    | file s => simp [writeFile] at h
    | dir cs =>
      cases p' with
      | nil =>
        cases q with
        | nil => exact absurd (List.nil_prefix) hq2
        | cons z zs =>
          have hzx : ¬ z = x := by
            intro hz
            subst hz
            exact hq1 (List.cons_prefix_cons.mpr ⟨rfl, List.nil_prefix⟩)
          rcases hfc : findChild cs x with _ | c
          · simp only [writeFile, hfc] at h
            have hf : FsNode.dir (setChild cs x (.file sz)) = f' := by
              exact Option.some.inj h
            rw [← hf]
            simp only [lookup]
            rw [findChild_setChild, if_neg hzx]
          · cases c with
            | file s2 =>
              simp only [writeFile, hfc] at h
              have hf : FsNode.dir (setChild cs x (.file sz)) = f' := Option.some.inj h
              rw [← hf]
              simp only [lookup]
              rw [findChild_setChild, if_neg hzx]
            | dir cs2 =>
              simp only [writeFile, hfc] at h
              exact absurd h (by simp)
      | cons y ys =>
        rcases hfc : findChild cs x with _ | c
        · simp only [writeFile, hfc] at h
          exact absurd h (by simp)
        · rcases hw : writeFile c (y :: ys) sz with _ | c'
          · simp only [writeFile, hfc, hw] at h
            exact absurd h (by simp)
          · simp only [writeFile, hfc, hw, Option.map_some] at h
            have hf : FsNode.dir (setChild cs x c') = f' := Option.some.inj h
            cases q with
            | nil => exact absurd (List.nil_prefix) hq2
            | cons z zs =>
              by_cases hzx : z = x
              · subst hzx
                rw [← hf]
                simp only [lookup]
                rw [findChild_setChild, if_pos rfl, hfc]
                exact ih c sz c' hw zs
                  (fun hpre => hq1 (List.cons_prefix_cons.mpr ⟨rfl, hpre⟩))
                  (fun hpre => hq2 (List.cons_prefix_cons.mpr ⟨rfl, hpre⟩))
              · rw [← hf]
                simp only [lookup]
                rw [findChild_setChild, if_neg hzx]

/-- A directory chain freshly created from an empty directory holds
nothing outside the chain. -/
theorem mkdirp_fresh : ∀ (xs : List String) (f : FsNode),
    mkdirp (.dir []) xs = some f →
    ∀ zs : List String, ¬ (zs <+: xs) → lookup f zs = none := by
  intro xs
  induction xs with
  | nil =>
    intro f h zs hzs
    have hf : FsNode.dir [] = f := Option.some.inj h
    cases zs with
    | nil => exact absurd (List.nil_prefix) hzs
    | cons z zs' =>
      rw [← hf]
      simp [lookup, findChild]
  | cons x xs' ih =>
    intro f h zs hzs
    rcases hm : mkdirp (.dir []) xs' with _ | c'
    · rw [show mkdirp (.dir []) (x :: xs') = none by
        simp [mkdirp, findChild, hm]] at h
      exact absurd h (by simp)
    · rw [show mkdirp (.dir []) (x :: xs') = some (.dir (setChild [] x c')) by
        simp [mkdirp, findChild, hm]] at h
      have hf : FsNode.dir (setChild [] x c') = f := Option.some.inj h
      cases zs with
      | nil => exact absurd (List.nil_prefix) hzs
      | cons z zs' =>
        rw [← hf]
        by_cases hzx : z = x
        · subst hzx
          simp only [lookup]
          rw [findChild_setChild, if_pos rfl]
          exact ih c' hm zs'
            (fun hpre => hzs (List.cons_prefix_cons.mpr ⟨rfl, hpre⟩))
        · simp only [lookup]
          rw [findChild_setChild, if_neg hzx]
          simp [findChild]

/-- A successful recursive mkdir changes lookups only at the created
path's ancestors and descendants. -/
theorem mkdirp_frame : ∀ (p : List String) (root f' : FsNode),
    mkdirp root p = some f' →
    ∀ q : List String, ¬ (p <+: q) → ¬ (q <+: p) → lookup f' q = lookup root q := by
  intro p
  induction p with
  | nil =>
    intro root f' h q hq1 hq2
    cases root with
    | dir cs =>
      have hf : FsNode.dir cs = f' := Option.some.inj h
      rw [← hf]
    | file s => simp [mkdirp] at h
  | cons x xs ih =>
    intro root f' h q hq1 hq2
    cases root with
    | file s => simp [mkdirp] at h
    | dir cs =>
      rcases hm : mkdirp (match findChild cs x with
        | some c => c
        | none => FsNode.dir []) xs with _ | c'
      · rw [show mkdirp (.dir cs) (x :: xs) = none by
          simp only [mkdirp, hm]] at h
        exact absurd h (by simp)
      · rw [show mkdirp (.dir cs) (x :: xs) = some (.dir (setChild cs x c')) by
          simp only [mkdirp, hm]] at h
        have hf : FsNode.dir (setChild cs x c') = f' := Option.some.inj h
        cases q with
        | nil => exact absurd (List.nil_prefix) hq2
        | cons z zs =>
          by_cases hzx : z = x
          · subst hzx
            rw [← hf]
            simp only [lookup]
            rw [findChild_setChild, if_pos rfl]
            rcases hfc : findChild cs z with _ | c
            · rw [hfc] at hm
              exact mkdirp_fresh xs c' hm zs
                (fun hpre => hq2 (List.cons_prefix_cons.mpr ⟨rfl, hpre⟩))
            · rw [hfc] at hm
              exact ih c c' hm zs
                (fun hpre => hq1 (List.cons_prefix_cons.mpr ⟨rfl, hpre⟩))
                (fun hpre => hq2 (List.cons_prefix_cons.mpr ⟨rfl, hpre⟩))
          · rw [← hf]
            simp only [lookup]
            rw [findChild_setChild, if_neg hzx]

/-- `writeFile` never removes an existing path. -/
theorem writeFile_present :
    ∀ (p : List String) (root : FsNode) (sz : Nat) (f' : FsNode),
    writeFile root p sz = some f' →
    ∀ q : List String, (lookup root q).isSome → (lookup f' q).isSome := by
  intro p
  induction p with
  | nil =>
    intro root sz f' h q _
    cases root <;> simp [writeFile] at h
  | cons x p' ih =>
    intro root sz f' h q hq
    cases root with
    | file s => simp [writeFile] at h
    | dir cs =>
      cases p' with
      | nil =>
        rcases hfc : findChild cs x with _ | c
        · simp only [writeFile, hfc] at h
          have hf : FsNode.dir (setChild cs x (.file sz)) = f' := Option.some.inj h
          rw [← hf]
          cases q with
          | nil => simp [lookup]
          | cons z zs =>
            by_cases hzx : z = x
            · subst hzx
              simp only [lookup, hfc] at hq
              exact absurd hq (by simp)
            · simp only [lookup] at hq ⊢
              rw [findChild_setChild, if_neg hzx]
              exact hq
        · cases c with
          | dir cs2 =>
            simp only [writeFile, hfc] at h
            exact absurd h (by simp)
          | file s2 =>
            simp only [writeFile, hfc] at h
            have hf : FsNode.dir (setChild cs x (.file sz)) = f' := Option.some.inj h
            rw [← hf]
            cases q with
            | nil => simp [lookup]
            | cons z zs =>
              by_cases hzx : z = x
              · subst hzx
                simp only [lookup] at hq ⊢
                rw [hfc] at hq
                rw [findChild_setChild, if_pos rfl]
                cases zs with
                | nil => simp [lookup]
                | cons w ws => simp [lookup] at hq
              · simp only [lookup] at hq ⊢
                rw [findChild_setChild, if_neg hzx]
                exact hq
      | cons y ys =>
        rcases hfc : findChild cs x with _ | c
        · simp only [writeFile, hfc] at h
          exact absurd h (by simp)
        · rcases hw : writeFile c (y :: ys) sz with _ | c'
          · simp only [writeFile, hfc, hw] at h
            exact absurd h (by simp)
          · simp only [writeFile, hfc, hw, Option.map_some] at h
            have hf : FsNode.dir (setChild cs x c') = f' := Option.some.inj h
            rw [← hf]
            cases q with
            | nil => simp [lookup]
            | cons z zs =>
              by_cases hzx : z = x
              · subst hzx
                simp only [lookup] at hq ⊢
                rw [hfc] at hq
                rw [findChild_setChild, if_pos rfl]
                exact ih c sz c' hw zs hq
              · simp only [lookup] at hq ⊢
                rw [findChild_setChild, if_neg hzx]
                exact hq

/-- Recursive mkdir never removes an existing path. -/
theorem mkdirp_present :
    ∀ (p : List String) (root f' : FsNode), mkdirp root p = some f' →
    ∀ q : List String, (lookup root q).isSome → (lookup f' q).isSome := by
  intro p
  induction p with
  | nil =>
    intro root f' h q hq
    cases root with
    | dir cs =>
      have hf : FsNode.dir cs = f' := Option.some.inj h
      rw [← hf]
      exact hq
    | file s => simp [mkdirp] at h
  | cons x xs ih =>
    intro root f' h q hq
    cases root with
    | file s => simp [mkdirp] at h
    | dir cs =>
      rcases hm : mkdirp (match findChild cs x with
        | some c => c
        | none => FsNode.dir []) xs with _ | c'
      · rw [show mkdirp (.dir cs) (x :: xs) = none by simp [mkdirp, hm]] at h
        exact absurd h (by simp)
      · rw [show mkdirp (.dir cs) (x :: xs) = some (.dir (setChild cs x c')) by
          simp [mkdirp, hm]] at h
        have hf : FsNode.dir (setChild cs x c') = f' := Option.some.inj h
        rw [← hf]
        cases q with
        | nil => simp [lookup]
        | cons z zs =>
          by_cases hzx : z = x
          · subst hzx
            simp only [lookup] at hq ⊢
            rw [findChild_setChild, if_pos rfl]
            rcases hfc : findChild cs z with _ | c
            · rw [hfc] at hq
              exact absurd hq (by simp)
            · rw [hfc] at hq hm
              exact ih c c' hm zs hq
          · simp only [lookup] at hq ⊢
            rw [findChild_setChild, if_neg hzx]
            exact hq

/-- The recursive copy modifies the filesystem only at the
destination, its descendants, and the ancestors it creates: any path
incomparable with the destination is untouched. -/
theorem copyGo_frame (total : Nat) :
    ∀ (fuel : Nat) (src dest : List String) (st : BState) (q : List String),
    ¬ (dest <+: q) → ¬ (q <+: dest) →
    (lookup (copyGo total fuel (.node src dest) st).1.fsys q = lookup st.fsys q ∧
     ∀ names, lookup (copyGo total fuel (.kids src dest names) st).1.fsys q
       = lookup st.fsys q) := by
  intro fuel
  induction fuel with
  | zero =>
    intro src dest st q h1 h2
    exact ⟨rfl, fun _ => rfl⟩
  | succ fuel ih =>
    intro src dest st q h1 h2
    constructor
    · rcases hs : lookup st.fsys src with _ | n
      · simp only [copyGo, hs]
      · cases n with
        | dir cs =>
          rcases hm : mkdirp st.fsys dest with _ | f2
          · simp only [copyGo, hs, hm]
          · simp only [copyGo, hs, hm]
            have hkids := (ih src dest { st with fsys := f2 } q h1 h2).2 (cs.map (·.1))
            rw [show ({ st with fsys := f2 } : BState).fsys = f2 from rfl] at hkids
            rw [hkids]
            exact mkdirp_frame dest st.fsys f2 hm q h1 h2
        | file sz =>
          rcases hw : writeFile st.fsys dest sz with _ | f2
          · simp only [copyGo, hs, hw]
          · simp only [copyGo, hs, hw]
            exact writeFile_frame dest st.fsys sz f2 hw q h1 h2
    · intro names
      cases names with
      | nil => simp only [copyGo]
      | cons n ns =>
        rcases hgo : copyGo total fuel (.node (src ++ [n]) (dest ++ [n])) st with ⟨st', e⟩
        have hcond1 : ¬ (dest ++ [n] <+: q) := fun hpre =>
          h1 ((List.prefix_append dest [n]).trans hpre)
        have hcond2 : ¬ (q <+: dest ++ [n]) := by
          intro hpre
          rcases List.prefix_concat_iff.mp hpre with heq | hpre'
          · subst heq
            exact h1 (List.prefix_append dest [n])
          · exact h2 hpre'
        have hnode := (ih (src ++ [n]) (dest ++ [n]) st q hcond1 hcond2).1
        rw [hgo] at hnode
        cases e with
        | some err =>
          simp only [copyGo, hgo]
          exact hnode
        | none =>
          simp only [copyGo, hgo]
          have hrest := (ih src dest st' q h1 h2).2 ns
          rw [hrest, hnode]

/-- The recursive copy never removes an existing path. -/
theorem copyGo_present (total : Nat) :
    ∀ (fuel : Nat) (src dest : List String) (st : BState) (q : List String),
    (lookup st.fsys q).isSome →
    ((lookup (copyGo total fuel (.node src dest) st).1.fsys q).isSome ∧
     ∀ names, (lookup (copyGo total fuel (.kids src dest names) st).1.fsys q).isSome) := by
  intro fuel
  induction fuel with
  | zero =>
    intro src dest st q hq
    exact ⟨hq, fun _ => hq⟩
  | succ fuel ih =>
    intro src dest st q hq
    constructor
    · rcases hs : lookup st.fsys src with _ | n
      · simp only [copyGo, hs]
        exact hq
      · cases n with
        | dir cs =>
          rcases hm : mkdirp st.fsys dest with _ | f2
          · simp only [copyGo, hs, hm]
            exact hq
          · simp only [copyGo, hs, hm]
            have hq2 : (lookup f2 q).isSome := mkdirp_present dest st.fsys f2 hm q hq
            exact (ih src dest { st with fsys := f2 } q hq2).2 (cs.map (·.1))
        | file sz =>
          rcases hw : writeFile st.fsys dest sz with _ | f2
          · simp only [copyGo, hs, hw]
            exact hq
          · simp only [copyGo, hs, hw]
            exact writeFile_present dest st.fsys sz f2 hw q hq
    · intro names
      cases names with
      | nil =>
        simp only [copyGo]
        exact hq
      | cons n ns =>
        rcases hgo : copyGo total fuel (.node (src ++ [n]) (dest ++ [n])) st with ⟨st', e⟩
        have hnode := (ih (src ++ [n]) (dest ++ [n]) st q hq).1
        rw [hgo] at hnode
        cases e with
        | some err =>
          simp only [copyGo, hgo]
          exact hnode
        | none =>
          simp only [copyGo, hgo]
          exact (ih src dest st' q hnode).2 ns

/-- C10: in a move whose rename failed, the recursive deletion of the
source happens only after the fallback copy finishes without error
(second conjunct); if the copy errors partway, the error escapes at
once (aborting the batch) before any removal: the source subtree is
still present, and — whenever source and destination do not overlap,
the precondition the spec's self-drop guard establishes — it is
bit-for-bit unchanged. -/
theorem move_fallback_source_preserved (exdev : List String → List String → Bool)
    (total : Nat) (sizes : List (List String × Nat)) (fuel : Nat)
    (it : TransferItem) (rest : List TransferItem) (st st' : BState) (e : FsErr)
    (hren : renameFs exdev st.fsys it.source it.dest = none) :
    (copyRecursive total fuel it.source it.dest st = (st', some e) →
      execItems exdev total sizes fuel .move (it :: rest) st = (st', some e) ∧
      ((lookup st.fsys it.source).isSome → (lookup st'.fsys it.source).isSome) ∧
      (¬ (it.source <+: it.dest) → ¬ (it.dest <+: it.source) →
        lookup st'.fsys it.source = lookup st.fsys it.source)) ∧
    (copyRecursive total fuel it.source it.dest st = (st', none) →
      execItems exdev total sizes fuel .move (it :: rest) st
        = execItems exdev total sizes fuel .move rest
            { st' with fsys := removeAt st'.fsys it.source }) := by
  constructor
  · intro hcopy
    refine ⟨?_, ?_, ?_⟩
    · simp only [execItems, hren, hcopy]
    · intro hpres
      have h := (copyGo_present total fuel it.source it.dest st it.source hpres).1
      rw [show copyGo total fuel (.node it.source it.dest) st = (st', some e)
        from hcopy] at h
      exact h
    · intro hnp1 hnp2
      have h := (copyGo_frame total fuel it.source it.dest st it.source hnp2 hnp1).1
      rw [show copyGo total fuel (.node it.source it.dest) st = (st', some e)
        from hcopy] at h
      exact h
  · intro hcopy
    simp only [execItems, hren, hcopy]

/-- Witness for C10: a fallback copy that fails halfway (a directory
blocks a file copy) leaves the source tree intact and aborts. -/
theorem move_fallback_source_preserved_witness :
    execItems (fun _ _ => true) 3 [] 5 .move [⟨["s"], ["t"]⟩]
        { fsys := .dir [("s", .dir [("x", .file 3)]), ("t", .dir [("x", .dir [])])],
          processedBytes := 0, processedFiles := 0, events := [] }
      = ({ fsys := .dir [("s", .dir [("x", .file 3)]), ("t", .dir [("x", .dir [])])],
           processedBytes := 0, processedFiles := 0, events := [] }, some .copyFail) ∧
    (lookup (FsNode.dir [("s", .dir [("x", .file 3)]), ("t", .dir [("x", .dir [])])])
      ["s"]).isSome ∧
    lookup (FsNode.dir [("s", .dir [("x", .file 3)]), ("t", .dir [("x", .dir [])])]) ["s"]
      = some (.dir [("x", .file 3)]) := by
  have h := (move_fallback_source_preserved (fun _ _ => true) 3 [] 5
    ⟨["s"], ["t"]⟩ []
    { fsys := .dir [("s", .dir [("x", .file 3)]), ("t", .dir [("x", .dir [])])],
      processedBytes := 0, processedFiles := 0, events := [] }
    { fsys := .dir [("s", .dir [("x", .file 3)]), ("t", .dir [("x", .dir [])])],
      processedBytes := 0, processedFiles := 0, events := [] }
    .copyFail (by rfl)).1 (by rfl)
  refine ⟨h.1, h.2.1 (by rfl), ?_⟩
  have h3 := h.2.2 (by decide) (by decide)
  rw [h3]
  rfl

/-! ## C4: progress accounting -/

/-- The clamped percentage is never negative. -/
theorem pct_nonneg (total b : Nat) : 0 ≤ pct total b := by
  unfold pct
  apply le_min
  · norm_num
  · positivity

/-- The clamped percentage never exceeds 100. -/
theorem pct_le_100 (total b : Nat) : pct total b ≤ 100 :=
  min_le_left _ _

/-- The clamped percentage grows with the processed byte count. -/
theorem pct_mono (total : Nat) {b b' : Nat} (h : b ≤ b') :
    pct total b ≤ pct total b' := by
  rcases Nat.eq_zero_or_pos total with h0 | hpos
  · subst h0
    simp [pct]
  · unfold pct
    apply min_le_min le_rfl
    have hb : (b : ℚ) ≤ (b' : ℚ) := by exact_mod_cast h
    have ht : (0 : ℚ) < (total : ℚ) := by exact_mod_cast hpos
    gcongr

/-- Emitting a progress event preserves the event-stream invariant:
events stay ordered and bounded by the current percentage. -/
theorem reportProgress_events (total : Nat) (st : BState)
    (h1 : st.events.Chain' (· ≤ ·))
    (h2 : ∀ x ∈ st.events, 0 ≤ x ∧ x ≤ pct total st.processedBytes) :
    (reportProgress total st).events.Chain' (· ≤ ·) ∧
    (∀ x ∈ (reportProgress total st).events,
      0 ≤ x ∧ x ≤ pct total (reportProgress total st).processedBytes) := by
  constructor
  · show (st.events ++ [pct total st.processedBytes]).Chain' (· ≤ ·)
    rw [List.chain'_append]
    refine ⟨h1, List.chain'_singleton _, ?_⟩
    intro x hx y hy
    have hxm : x ∈ st.events := List.mem_of_mem_getLast? hx
    have hym : y = pct total st.processedBytes := by
      simp at hy
      exact hy.symm
    rw [hym]
    exact (h2 x hxm).2
  · intro x hx
    rcases List.mem_append.mp hx with hold | hnew
    · exact h2 x hold
    · have hxe : x = pct total st.processedBytes := by
        simp at hnew
        exact hnew
      rw [hxe]
      exact ⟨pct_nonneg _ _, le_rfl⟩

/-- The recursive copy only appends progress events, keeps the stream
ordered and bounded by the running percentage, and never decreases
`processedBytes`. -/
theorem copyGo_events (total : Nat) :
    ∀ (fuel : Nat) (task : CopyTask) (st : BState),
    st.events.Chain' (· ≤ ·) →
    (∀ x ∈ st.events, 0 ≤ x ∧ x ≤ pct total st.processedBytes) →
    ((copyGo total fuel task st).1.events.Chain' (· ≤ ·) ∧
     (∀ x ∈ (copyGo total fuel task st).1.events,
       0 ≤ x ∧ x ≤ pct total (copyGo total fuel task st).1.processedBytes) ∧
     st.processedBytes ≤ (copyGo total fuel task st).1.processedBytes) := by
  intro fuel
  induction fuel with
  | zero =>
    intro task st h1 h2
    exact ⟨h1, h2, le_rfl⟩
  | succ fuel ih =>
    intro task st h1 h2
    cases task with
    | node src dest =>
      rcases hs : lookup st.fsys src with _ | n
      · simp only [copyGo, hs]
        exact ⟨h1, h2, le_rfl⟩
      · cases n with
        | dir cs =>
          rcases hm : mkdirp st.fsys dest with _ | f2
          · simp only [copyGo, hs, hm]
            exact ⟨h1, h2, le_rfl⟩
          · simp only [copyGo, hs, hm]
            exact ih (.kids src dest (cs.map (·.1))) { st with fsys := f2 } h1 h2
        | file sz =>
          rcases hw : writeFile st.fsys dest sz with _ | f2
          · simp only [copyGo, hs, hw]
            exact ⟨h1, h2, le_rfl⟩
          · simp only [copyGo, hs, hw]
            have h2' : ∀ x ∈ st.events, 0 ≤ x ∧
                x ≤ pct total (st.processedBytes + sz) := by
              intro x hx
              exact ⟨(h2 x hx).1,
                le_trans (h2 x hx).2 (pct_mono total (Nat.le_add_right _ _))⟩
            have hrep := reportProgress_events total
              { fsys := f2, processedBytes := st.processedBytes + sz,
                processedFiles := st.processedFiles + 1, events := st.events }
              h1 h2'
            exact ⟨hrep.1, hrep.2, Nat.le_add_right _ _⟩
    | kids src dest names =>
      cases names with
      | nil =>
        simp only [copyGo]
        exact ⟨h1, h2, le_rfl⟩
      | cons n ns =>
        rcases hgo : copyGo total fuel (.node (src ++ [n]) (dest ++ [n])) st with ⟨st', e⟩
        have hnode := ih (.node (src ++ [n]) (dest ++ [n])) st h1 h2
        rw [hgo] at hnode
        cases e with
        | some err =>
          simp only [copyGo, hgo]
          exact hnode
        | none =>
          simp only [copyGo, hgo]
          have hrest := ih (.kids src dest ns) st' hnode.1 hnode.2.1
          exact ⟨hrest.1, hrest.2.1, le_trans hnode.2.2 hrest.2.2⟩

/-- The execution phase preserves the event-stream invariant across
items, in both modes. -/
theorem execItems_events (exdev : List String → List String → Bool) (total : Nat)
    (sizes : List (List String × Nat)) (fuel : Nat) (op : TransferOp) :
    ∀ (items : List TransferItem) (st : BState),
    st.events.Chain' (· ≤ ·) →
    (∀ x ∈ st.events, 0 ≤ x ∧ x ≤ pct total st.processedBytes) →
    ((execItems exdev total sizes fuel op items st).1.events.Chain' (· ≤ ·) ∧
     ∀ x ∈ (execItems exdev total sizes fuel op items st).1.events,
       0 ≤ x ∧ x ≤ pct total (execItems exdev total sizes fuel op items st).1.processedBytes) := by
  intro items
  induction items with
  | nil =>
    intro st h1 h2
    exact ⟨h1, h2⟩
  | cons it rest ih =>
    intro st h1 h2
    cases op with
    | copy =>
      rcases hgo : copyRecursive total fuel it.source it.dest st with ⟨st', e⟩
      have hcopy := copyGo_events total fuel (.node it.source it.dest) st h1 h2
      rw [show copyGo total fuel (.node it.source it.dest) st = (st', e) from hgo] at hcopy
      cases e with
      | some err =>
        simp only [execItems, hgo]
        exact ⟨hcopy.1, hcopy.2.1⟩
      | none =>
        simp only [execItems, hgo]
        exact ih st' hcopy.1 hcopy.2.1
    | move =>
      rcases hren : renameFs exdev st.fsys it.source it.dest with _ | f'
      · rcases hgo : copyRecursive total fuel it.source it.dest st with ⟨st', e⟩
        have hcopy := copyGo_events total fuel (.node it.source it.dest) st h1 h2
        rw [show copyGo total fuel (.node it.source it.dest) st = (st', e) from hgo] at hcopy
        cases e with
        | some err =>
          simp only [execItems, hren, hgo]
          exact ⟨hcopy.1, hcopy.2.1⟩
        | none =>
          simp only [execItems, hren, hgo]
          exact ih { st' with fsys := removeAt st'.fsys it.source } hcopy.1 hcopy.2.1
      · simp only [execItems, hren]
        have h2' : ∀ x ∈ st.events, 0 ≤ x ∧ x ≤ pct total
            (st.processedBytes + itemSizesGet sizes it.source) := by
          intro x hx
          exact ⟨(h2 x hx).1,
            le_trans (h2 x hx).2 (pct_mono total (Nat.le_add_right _ _))⟩
        have hrep := reportProgress_events total
          { st with
              fsys := f',
              processedBytes := st.processedBytes + itemSizesGet sizes it.source }
          h1 h2'
        exact ih _ hrep.1 hrep.2

/-- C4: after the scan phase `totalBytes` is at least 1 (a zero total
is replaced by 1), every emitted progress value is
`min 100 (processedBytes / totalBytes * 100)` at the emitting moment
(`reportProgress` computes exactly that), and the emitted sequence of
a batch lies in [0, 100] and is monotonically non-decreasing. -/
theorem batch_progress_bounds (exdev : List String → List String → Bool) (fuel : Nat)
    (items : List TransferItem) (op : TransferOp) (world : FsNode) :
    1 ≤ totalBytesOf world items ∧
    (∀ (total : Nat) (st : BState), reportProgress total st
      = { st with events := st.events ++
          [min 100 ((st.processedBytes : ℚ) / (total : ℚ) * 100)] }) ∧
    (runBatch exdev fuel items op world).1.events.Chain' (· ≤ ·) ∧
    (∀ x ∈ (runBatch exdev fuel items op world).1.events, 0 ≤ x ∧ x ≤ 100) := by
  refine ⟨?_, fun total st => rfl, ?_, ?_⟩
  · unfold totalBytesOf
    by_cases h : (items.map (fun it => scanBytes world it.source)).sum = 0
    · simp [h]
    · simp [h]
      omega
  · exact (execItems_events exdev (totalBytesOf world items) (itemSizesOf world items)
      fuel op items ⟨world, 0, 0, []⟩ (List.chain'_nil) (by intro x hx; simp at hx)).1
  · intro x hx
    have h := (execItems_events exdev (totalBytesOf world items) (itemSizesOf world items)
      fuel op items ⟨world, 0, 0, []⟩ (List.chain'_nil) (by intro y hy; simp at hy)).2 x hx
    exact ⟨h.1, le_trans h.2 (pct_le_100 _ _)⟩

/-! ## C8: cache eviction -/

/-- C8: a cache over its entry ceiling is trimmed to exactly `n`
entries by deleting oldest-inserted entries first: the kept entries are
the newest-inserted suffix, the removed ones the oldest-inserted
prefix, and a cache of `n + 1` entries loses exactly its single
oldest entry. -/
theorem trimCache_evicts_oldest {α β : Type} (cache : List (α × β)) (n : Nat)
    (h : n < cache.length) :
    (trimCache cache n).length = n ∧
    trimCache cache n = cache.drop (cache.length - n) ∧
    cache.take (cache.length - n) ++ trimCache cache n = cache ∧
    (cache.length = n + 1 → trimCache cache n = cache.tail) := by
  have hnot : ¬ cache.length ≤ n := by omega
  refine ⟨?_, ?_, ?_, ?_⟩
  · simp [trimCache, hnot]
    omega
  · simp [trimCache, hnot]
  · simp [trimCache, hnot]
  · intro hlen
    simp [trimCache, hnot, hlen]

/-- Witness for C8: three entries trimmed to a two-entry ceiling. -/
theorem trimCache_evicts_oldest_witness :
    (trimCache [(1, 10), (2, 20), (3, 30)] 2).length = 2 ∧
    trimCache [(1, 10), (2, 20), (3, 30)] 2 = [(1, 10), (2, 20), (3, 30)].drop 1 ∧
    [(1, 10), (2, 20), (3, 30)].take 1 ++ trimCache [(1, 10), (2, 20), (3, 30)] 2
      = [(1, 10), (2, 20), (3, 30)] ∧
    (([(1, 10), (2, 20), (3, 30)] : List (Nat × Nat)).length = 3 →
      trimCache [(1, 10), (2, 20), (3, 30)] 2 = [(1, 10), (2, 20), (3, 30)].tail) := by
  have h := trimCache_evicts_oldest [((1 : Nat), (10 : Nat)), (2, 20), (3, 30)] 2 (by decide)
  exact h

end EzFm
